import Mathlib

/-!
VrsTunnel NTRIP client: a shallow embedding

The definitions below embed `Src/Ntrip/Src/NtripClient.cpp` (and the parts of
`Src/ntclient.cpp` that drive it).  Byte strings (`std::string`,
`std::string_view`) are lists of characters; `std::size_t` positions are
natural numbers, `std::string::npos` is `none` where the source only compares
against it and the 64-bit value `2^64 - 1` where the source does arithmetic
with it; a finite `double` is the rational number it denotes, and the division
and the addition of the coordinate decoder round to the nearest `double`.
-/

namespace VrsTunnel.Ntrip

/-! ## Byte strings and the `std::string_view` operations the code uses -/

/-- A byte string: the contents of a `std::string` or `std::string_view`. -/
abbrev Bytes := List Char

/-- Width of `std::size_t` arithmetic: values are taken modulo `2^64`. -/
def sizeMod : Nat := 2 ^ 64

/-- The value of `std::string::npos`, the largest `std::size_t`. -/
def npos : Nat := sizeMod - 1

/-- The `std::size_t` value of a search result: `npos` when nothing was found. -/
def posValue : Option Nat → Nat
  | some p => p
  | none => npos

/-- Scan for the first suffix of the text that starts with `needle`; `i` is the
position of the head of the text in the original string. -/
def findAux (needle : Bytes) : Bytes → Nat → Option Nat
  | [], i => if needle.isPrefixOf [] then some i else none
  | c :: cs, i =>
    if needle.isPrefixOf (c :: cs) then some i else findAux needle cs (i + 1)

/-- The call `haystack.find(needle, pos)`: the first position `p ≥ pos` at
which `needle` occurs, `none` (npos) when there is none or `pos` is past the
end. -/
def find (haystack needle : Bytes) (pos : Nat) : Option Nat :=
  if pos ≤ haystack.length then findAux needle (haystack.drop pos) pos else none

/-- The call `s.substr(pos, count)` for `pos ≤ s.size()`: at most `count`
bytes starting at `pos`.  Every call site in the embedded code has
`pos ≤ s.size()`, so the `std::out_of_range` branch is not reached. -/
def substr (s : Bytes) (pos count : Nat) : Bytes := (s.drop pos).take count

/-- The call `s.substr(pos)` for `pos ≤ s.size()`: the rest of the string from
`pos` on (the count defaults to npos). -/
def substrFrom (s : Bytes) (pos : Nat) : Bytes := s.drop pos

/-! ## Source-table parsing -/

/-- Modelled from the spec: `location.hpp` is not among the sources; a location
carries a latitude and a longitude, the two members `getReference` assigns
(a finite `double` is represented by the rational number it denotes). -/
structure location where
  Latitude : ℚ
  Longitude : ℚ
  deriving DecidableEq

/-- The struct `MountPoint` of `NtripClient.hpp`. -/
structure MountPoint where
  Raw : Bytes
  Reference : location
  Name : Bytes
  deriving DecidableEq

/-- The constant `tableEnding` of `hasTableEnding`. -/
def tableEnding : Bytes := "ENDSOURCETABLE\r\n".toList

/-- The method `NtripClient::hasTableEnding`; `compare(...) == 0` is equality
of the compared substring with `tableEnding`. -/
def hasTableEnding (data : Bytes) : Bool :=
  if data.length ≥ tableEnding.length then
    substr data (data.length - tableEnding.length) tableEnding.length == tableEnding
  else
    false

/-- The method `NtripClient::getName`. -/
def getName (line : Bytes) : Bytes :=
  match find line [';'] 0 with
  | some nameStart =>
    match find line [';'] (nameStart + 1) with
    | some nameStop => substr line (nameStart + 1) (nameStop - (nameStart + 1))
    | none => []
  | none => []

/-- The recursive lambda `find_Nth` of `getReference`. -/
def find_Nth (haystack : Bytes) (pos : Nat) (needle : Bytes) : Nat → Option Nat
  | 0 => find haystack needle pos
  | nth + 1 =>
    match find haystack needle pos with
    | none => none
    | some found_pos => find_Nth haystack (found_pos + 1) needle nth

/-- Whether a byte is a decimal digit. -/
def isDigit (c : Char) : Bool := decide ('0' ≤ c) && decide (c ≤ '9')

/-- Value of a decimal digit. -/
def digitVal (c : Char) : Nat := c.toNat - '0'.toNat

/-- Value of a run of decimal digits, most significant first. -/
def natOfDigits (ds : Bytes) : Nat := ds.foldl (fun acc c => 10 * acc + digitVal c) 0

/-- Smallest value of a 32-bit `int`. -/
def INT_MIN : Int := -(2 ^ 31)

/-- Largest value of a 32-bit `int`. -/
def INT_MAX : Int := 2 ^ 31 - 1

/-- The call `std::from_chars(first, last, value)` for a 32-bit `int` in base
10, returning the content of `value` afterwards: an optional `-` and the
longest digit run are read; `value` is left unchanged when there is no digit
(invalid argument) or the number does not fit an `int` (result out of range). -/
def from_chars (s : Bytes) (value : Int) : Int :=
  let neg : Bool := s.head? == some '-'
  let body : Bytes := if neg then s.tail else s
  let ds : Bytes := body.takeWhile isDigit
  if ds.isEmpty then value
  else
    let v : Int := if neg then -(natOfDigits ds : Int) else (natOfDigits ds : Int)
    if INT_MIN ≤ v ∧ v ≤ INT_MAX then v else value

/-- The field `sv_float` the lambda `parse` of `getReference` cuts out of the
line (lines 136-138), with the `std::size_t` arithmetic of `start` and of
`stop - start` taken modulo `2^64`. -/
def parseField (line : Bytes) (pos : Nat) : Bytes :=
  let start : Nat := (posValue (find_Nth line 0 [';'] pos) + 1) % sizeMod
  let stop : Nat := posValue (find_Nth line 0 [';'] (pos + 1))
  substr line start ((stop + sizeMod - start) % sizeMod)

/-- Nearest integer to a rational, a tie going to the even neighbour. -/
def roundHalfEven (x : ℚ) : Int :=
  let f : Int := ⌊x⌋
  let r : ℚ := x - (f : ℚ)
  if r < 1 / 2 then f
  else if 1 / 2 < r then f + 1
  else if f % 2 = 0 then f
  else f + 1

/-- Exponent of the unit in the last place of the doubles next to `q`: 52 below
the binary exponent of `q`, and -1074 throughout the subnormal range. -/
def ulpExponent (q : ℚ) : Int := max (Int.log 2 |q| - 52) (-1074)

/-- The `double` nearest to `q`, ties to even: the rounding IEEE 754 prescribes
for the result of a division or an addition in the default rounding mode.
Overflow to infinity is not represented; the decoder only rounds numbers of
magnitude at most `2^32`. -/
def roundDouble (q : ℚ) : ℚ :=
  (roundHalfEven (q / (2 : ℚ) ^ ulpExponent q) : ℚ) * (2 : ℚ) ^ ulpExponent q

/-- The call `std::pow(10, n)`: the `double` nearest to `10^n`, which is `10^n`
itself for `n ≤ 22`, and `none` for the infinity returned when `10^n` exceeds the
range of `double` (`n > 308`).  The library function is not part of the
repository and is taken to round correctly. -/
def pow10 (n : Nat) : Option ℚ :=
  if n ≤ 308 then some (roundDouble ((10 : ℚ) ^ n)) else none

/-- The `double` `static_cast<double>(frac) / std::pow(10, n)` of line 148; a
finite number divided by infinity is zero. -/
def fracQuotient (frac : Int) (n : Nat) : ℚ :=
  match pow10 n with
  | some p => roundDouble ((frac : ℚ) / p)
  | none => 0

/-- The coordinate decoder: the rest of the lambda `parse` of `getReference`
(lines 140-155), applied to the field `sv_float`.  With a dot the result is the
`double` sum of the quotient `frac / pow(10, size)` and `integ`; without a dot
it is the `int` read, which converts to `double` exactly. -/
def parseValue (sv_float : Bytes) : ℚ :=
  match find sv_float ['.'] 0 with
  | some dotPos =>
    let integ : Int := from_chars (substr sv_float 0 dotPos) 0
    let sv_frac : Bytes := substrFrom sv_float (dotPos + 1)
    let frac : Int := from_chars sv_frac 0
    roundDouble (fracQuotient frac sv_frac.length + (integ : ℚ))
  | none => ((from_chars sv_float 0 : Int) : ℚ)

/-- The lambda `parse` of `getReference`. -/
def parse (line : Bytes) (pos : Nat) : ℚ := parseValue (parseField line pos)

/-- The method `NtripClient::getReference`. -/
def getReference (line : Bytes) : location :=
  { Latitude := parse line 8, Longitude := parse line 9 }

/-- The row terminator the loop of `parseTable` compares against. -/
def endRow : Bytes := "ENDSOURCETABLE".toList

/-- The `while` loop of `parseTable` (lines 91-101).  The loop variables are
`rowStart`, `rowEnd` (`none` is npos) and the vector `mountPoints`; `fuel`
bounds the number of iterations and `none` is returned when it runs out. -/
def parseRows (data : Bytes) : Nat → Nat → Option Nat → List MountPoint →
    Option (List MountPoint)
  | _, _, none, mountPoints => some mountPoints
  | 0, _, some _, _ => none
  | fuel + 1, rowStart, some rowEnd, mountPoints =>
    let raw : Bytes := substr data rowStart (rowEnd - rowStart)
    let mountPoints1 : List MountPoint :=
      if raw ≠ endRow then
        mountPoints ++ [{ Raw := raw, Reference := getReference raw, Name := getName raw }]
      else mountPoints
    parseRows data fuel (rowEnd + 2) (find data ['\r', '\n'] (rowEnd + 2)) mountPoints1

/-- The method `NtripClient::parseTable`; the loop is given `data.length + 1`
iterations, and `none` would mean that they did not suffice. -/
def parseTable (data : Bytes) : Option (List MountPoint) :=
  match find data ['\r', '\n', '\r', '\n'] 0 with
  | some tableStart =>
    parseRows data (data.length + 1) (tableStart + 4)
      (find data ['\r', '\n'] (tableStart + 4)) []
  | none => some []


/-! ## The protocol engine -/

/-- The enum `io_status` of `async_io.hpp`. -/
inductive io_status where
  | InProgress
  | Error
  | Success
  deriving DecidableEq

/-- Modelled from the spec: the header declaring `NtripClient::status` is not
among the sources; the handshake outcomes are ok, error and authfailure. -/
inductive status where
  | ok
  | error
  | authfailure
  deriving DecidableEq

/-- Modelled from the spec: `ntrip_login` is declared in a header that is not
among the sources; these are the members `connect` passes to `build_request`. -/
structure ntrip_login where
  mountpoint : Bytes
  username : Bytes
  password : Bytes
  deriving DecidableEq

/-- The bytes `%s` prints for a `const char*`: everything before the first NUL. -/
def c_str (s : Bytes) : Bytes := s.takeWhile (fun c => c ≠ '\x00')

/-- The method `NtripClient::build_request`.  The Base64 encoder of
`base64_encoder.hpp` is not among the sources and is the parameter `encode`;
the result is the NUL-terminated text `sprintf` leaves in the buffer. -/
def build_request (encode : Bytes → Bytes → Bytes) (mountpoint name password : Bytes) : Bytes :=
  let auth : Bytes := if name.length > 0 then encode name password else []
  "GET /".toList ++ c_str mountpoint ++ " HTTP/1.0\r\n".toList ++
    "User-Agent: NTRIP PvvovanNTRIPClient/1.0.0\r\n".toList ++
    "Accept: */*\r\n".toList ++ "Connection: close\r\n".toList ++
    "Authorization: Basic ".toList ++ c_str auth ++ "\r\n".toList ++ "\r\n".toList

/-- What one call of `async_io::Available()` observes: a negative count, or
the bytes that `Read(avail)` then returns (`avail` is their number, 0 for an
empty chunk). -/
inductive Poll where
  | failure
  | data (chunk : Bytes)
  deriving DecidableEq

/-- The value `Available()` returns at a poll. -/
def Poll.avail : Poll → Int
  | Poll.failure => -1
  | Poll.data chunk => (chunk.length : Int)

/-- The bytes `Read(avail)` returns at a poll. -/
def Poll.chunk : Poll → Bytes
  | Poll.failure => []
  | Poll.data chunk => chunk

/-- The poll at the head of a script of future polls; once the script is used
up nothing more arrives and `Available()` returns 0. -/
def nextPoll (script : List Poll) : Poll := script.head?.getD (Poll.data [])

/-- The caster and network as the engine sees them: the result of
`tcp_client::Connect`, the result of `async_io::Write` for the request, and
what the successive polls of `Available()` observe. -/
structure Net where
  connectResult : io_status
  writeResult : io_status
  script : List Poll
  deriving DecidableEq

/-- State of a response wait when it is left. -/
structure Wait where
  failed : Bool
  text : Bytes
  polls : Nat
  rest : List Poll
  deriving DecidableEq

/-- The test `text.length() >= ending.length() && text.compare(text.length() -
ending.length(), ending.length(), ending) == 0` of the wait loop of `connect`. -/
def endsWith (text ending : Bytes) : Bool :=
  decide (text.length ≥ ending.length) &&
    (substr text (text.length - ending.length) ending.length == ending)

/-- The loop `for (int i = 1; i < 50; ++i)` of `connect` (lines 183-200), with
`n = 50 - i` iterations left.  `failed` records the `return status::error` of
line 187, `polls` counts the calls of `Available()`. -/
def connectWait : Nat → List Poll → Bytes → Nat → Wait
  | 0, script, responseText, polls =>
    { failed := false, text := responseText, polls := polls, rest := script }
  | n + 1, script, responseText, polls =>
    let avail : Int := (nextPoll script).avail
    if avail < 0 then
      { failed := true, text := responseText, polls := polls + 1, rest := script.tail }
    else if avail > 0 then
      let responseText1 : Bytes := responseText ++ (nextPoll script).chunk
      if endsWith responseText1 ['\r', '\n', '\r', '\n'] then
        { failed := false, text := responseText1, polls := polls + 1, rest := script.tail }
      else connectWait n script.tail responseText1 (polls + 1)
    else connectWait n script.tail responseText (polls + 1)

/-- The lambda `startsWith` of `connect`. -/
def startsWith (text start : Bytes) : Bool :=
  if start.length > text.length then false
  else substr text 0 start.length == start

/-- The engine: whether `m_tcp` and `m_aio` hold an object. -/
structure NtripClient where
  m_tcp : Bool
  m_aio : Bool
  deriving DecidableEq

/-- The messages of the `std::runtime_error` exceptions the engine throws. -/
inductive Fatal where
  | tcp_connection_already_created
  | no_tcp_connection
  | error_sending_gga
  deriving DecidableEq

/-- Outcome of a call that either returns or throws. -/
inductive Call (α : Type) where
  | returned (value : α)
  | thrown (what : Fatal)
  deriving DecidableEq

/-- What a call of `connect` that returns leaves behind: the returned status,
the engine, the request handed to `Write` (if it got that far), the response
text read, the number of polls of `Available()` and the polls not yet made. -/
structure Connected where
  result : status
  client : NtripClient
  request : Option Bytes
  responseText : Bytes
  polls : Nat
  rest : List Poll
  deriving DecidableEq

/-- The method `NtripClient::connect`. -/
def connect (encode : Bytes → Bytes → Bytes) (self : NtripClient) (nlogin : ntrip_login)
    (net : Net) : Call Connected :=
  if self.m_tcp then Call.thrown Fatal.tcp_connection_already_created
  else if net.connectResult ≠ io_status.Success then
    Call.returned { result := status.error, client := { self with m_tcp := false },
                    request := none, responseText := [], polls := 0, rest := net.script }
  else
    let self1 : NtripClient := { m_tcp := true, m_aio := true }
    let request : Bytes := build_request encode nlogin.mountpoint nlogin.username nlogin.password
    if net.writeResult ≠ io_status.Success then
      Call.returned { result := status.error, client := self1, request := some request,
                      responseText := [], polls := 0, rest := net.script }
    else
      let w : Wait := connectWait (50 - 1) net.script [] 0
      let result : status :=
        if w.failed then status.error
        else if startsWith w.text "HTTP/1.1 401 Unauthorized\r\n".toList then status.authfailure
        else if startsWith w.text "ICY 200 OK\r\n".toList then status.ok
        else status.error
      Call.returned { result := result, client := self1, request := some request,
                      responseText := w.text, polls := w.polls, rest := w.rest }

/-- The loop `for (int i = 0; i < 50; i++)` of `getMountPoints` (lines 50-63),
with `n = 50 - i` iterations left. -/
def tableWait : Nat → List Poll → Bytes → Nat → Wait
  | 0, script, responseRaw, polls =>
    { failed := false, text := responseRaw, polls := polls, rest := script }
  | n + 1, script, responseRaw, polls =>
    let avail : Int := (nextPoll script).avail
    if avail < 0 then
      { failed := true, text := responseRaw, polls := polls + 1, rest := script.tail }
    else if avail > 0 then
      let responseRaw1 : Bytes := responseRaw ++ (nextPoll script).chunk
      if hasTableEnding responseRaw1 then
        { failed := false, text := responseRaw1, polls := polls + 1, rest := script.tail }
      else tableWait n script.tail responseRaw1 (polls + 1)
    else tableWait n script.tail responseRaw (polls + 1)

/-- What a call of `getMountPoints` leaves behind: the returned variant (`none`
only if the row loop of `parseTable` ran out of iterations), the request
handed to `Write`, and the number of polls of `Available()`. -/
structure Discovered where
  result : Option (List MountPoint ⊕ io_status)
  request : Option Bytes
  polls : Nat
  deriving DecidableEq

/-- The method `NtripClient::getMountPoints`. -/
def getMountPoints (encode : Bytes → Bytes → Bytes) (net : Net) (name password : Bytes) :
    Discovered :=
  if net.connectResult ≠ io_status.Success then
    { result := some (Sum.inr net.connectResult), request := none, polls := 0 }
  else
    let request : Bytes := build_request encode [] name password
    if net.writeResult ≠ io_status.Success then
      { result := some (Sum.inr net.writeResult), request := some request, polls := 0 }
    else
      let w : Wait := tableWait 50 net.script [] 0
      if w.failed then
        { result := some (Sum.inr io_status.Error), request := some request, polls := w.polls }
      else if !hasTableEnding w.text then
        { result := some (Sum.inr io_status.Error), request := some request, polls := w.polls }
      else
        { result := (parseTable w.text).map Sum.inl, request := some request, polls := w.polls }

/-! ## The steady-state loop of `output_correction` -/

/-- What the write side of the channel answers on one tick of the loop: the
results of the two calls of `Check()` in `is_sending` and of the `Write` in
`send_gga`, for the calls that are made on that tick. -/
structure Aio where
  check1 : io_status
  check2 : io_status
  write : io_status
  deriving DecidableEq

/-- The calls on the channel, and the bytes forwarded, that a tick makes. -/
inductive Action where
  | Check (result : io_status)
  | End
  | send_gga (result : io_status)
  | available (avail : Int)
  | receive (corr : Bytes)
  deriving DecidableEq

/-- The method `NtripClient::is_sending`, with the calls it makes on `m_aio`. -/
def is_sending (io : Aio) : Call (Bool × List Action) :=
  if io.check1 = io_status.InProgress then
    Call.returned (true, [Action.Check io.check1])
  else if io.check2 = io_status.Success then
    Call.returned (false, [Action.Check io.check1, Action.Check io.check2, Action.End])
  else
    Call.thrown Fatal.error_sending_gga

/-- The method `NtripClient::send_gga`: the result of the `Write` of the GGA
sentence (`nmea.hpp` is not among the sources; the sentence does not influence
the control flow). -/
def send_gga (self : NtripClient) (io : Aio) : Call io_status :=
  if !self.m_aio then Call.thrown Fatal.no_tcp_connection
  else Call.returned io.write

/-- The constant `timeout` of `output_correction`. -/
def timeout : Int := 100

/-- The reads of one tick (lines 73-77): `available()`, and `receive` with
`fwrite` when the count is positive.  Returns the calls made and the polls
still to come. -/
def relay (script : List Poll) : List Action × List Poll :=
  let avail : Int := (nextPoll script).avail
  if avail > 0 then
    ([Action.available avail, Action.receive (nextPoll script).chunk], script.tail)
  else
    ([Action.available avail], script.tail)

/-- One pass through the body of the loop `for (;;)` of `output_correction`
(lines 62-77): the new value of `counter`, the calls made and the polls still
to come.  The `int` counter is not wrapped: it would take 2^31 ticks to
overflow. -/
def loopBody (self : NtripClient) (counter : Int) (io : Aio) (script : List Poll) :
    Call (Int × List Action × List Poll) :=
  let counter1 : Int := counter + 1
  if counter1 = timeout then
    match is_sending io with
    | Call.thrown what => Call.thrown what
    | Call.returned (true, acts) =>
      Call.returned (counter1, acts ++ (relay script).1, (relay script).2)
    | Call.returned (false, acts) =>
      match send_gga self io with
      | Call.thrown what => Call.thrown what
      | Call.returned send_res =>
        Call.returned (0, acts ++ [Action.send_gga send_res] ++ (relay script).1,
          (relay script).2)
  else
    Call.returned (counter1, (relay script).1, (relay script).2)

/-- A finite stretch of the loop: the calls of each tick that completed, and
the exception that ended the loop if one was thrown. -/
structure Run where
  ticks : List (List Action)
  fatal : Option Fatal
  deriving DecidableEq

/-- The loop `for (;;)` of `output_correction` run for as many ticks as `ios`
has entries, from the given value of `counter`. -/
def steady (self : NtripClient) : Int → List Aio → List Poll → Run
  | _, [], _ => { ticks := [], fatal := none }
  | counter, io :: ios, script =>
    match loopBody self counter io script with
    | Call.thrown what => { ticks := [], fatal := some what }
    | Call.returned (counter1, acts, script1) =>
      let r : Run := steady self counter1 ios script1
      { ticks := acts :: r.ticks, fatal := r.fatal }

/-- What a call of `output_correction` leaves behind: the exit code when it
returns before the loop, and the stretch of the loop that was run. -/
structure Session where
  exit : Option Int
  run : Run
  deriving DecidableEq

/-- The function `output_correction` of `ntclient.cpp`, its endless loop run
for as many ticks as `ios` has entries. -/
def output_correction (encode : Bytes → Bytes → Bytes) (login : ntrip_login) (net : Net)
    (ios : List Aio) : Session :=
  match connect encode { m_tcp := false, m_aio := false } login net with
  | Call.thrown what => { exit := none, run := { ticks := [], fatal := some what } }
  | Call.returned out =>
    if out.result = status.authfailure then
      { exit := some 1, run := { ticks := [], fatal := none } }
    else if out.result = status.error then
      { exit := some 1, run := { ticks := [], fatal := none } }
    else
      { exit := none, run := steady out.client (timeout - 3) ios out.rest }

/-! ## Specification-level notions the statements use -/

/-- Put a byte in front of the first piece of a split. -/
def consHead (c : Char) : List Bytes → List Bytes
  | [] => [[c]]
  | r :: rs => (c :: r) :: rs

/-- The pieces of a text split on the delimiter `"\r\n"`, as the specification
words it: every occurrence of the delimiter, found left to right, ends a piece,
and the text after the last delimiter is the last piece. -/
def splitCRLF : Bytes → List Bytes
  | [] => [[]]
  | [c] => [[c]]
  | c :: d :: rest =>
    if c = '\r' ∧ d = '\n' then [] :: splitCRLF rest
    else consHead c (splitCRLF (d :: rest))

/-- The fields of a row split on `;` (field 0 is the text before the first `;`). -/
def fields : Bytes → List Bytes
  | [] => [[]]
  | c :: cs => if c = ';' then [] :: fields cs else consHead c (fields cs)

/-- The MountPoint the loop of `parseTable` builds for a row `raw` (lines 92-96). -/
def mkMountPoint (raw : Bytes) : MountPoint :=
  { Raw := raw, Reference := getReference raw, Name := getName raw }

/-- The integer a digit run denotes, negated under a leading `-`. -/
def signedVal (neg : Bool) (ds : Bytes) : Int :=
  if neg then -(natOfDigits ds : Int) else (natOfDigits ds : Int)

/-- The optional leading `-` of a coordinate field. -/
def signText (neg : Bool) : Bytes := if neg then ['-'] else []

/-- The bytes the first `k` polls of a script deliver, in order. -/
def received (script : List Poll) (k : Nat) : Bytes :=
  ((script.take k).map Poll.chunk).flatten

/-- The last `n` bytes of a byte string (all of it when it is shorter). -/
def lastBytes (n : Nat) (data : Bytes) : Bytes := data.drop (data.length - n)

/-- The decimal value a field `[-]I.F` denotes: `I + F / 10^n`, with `n` the number
of digits of `F`, negated as a whole under a leading `-`. -/
def decimalValue (neg : Bool) (I F : Bytes) : ℚ :=
  if neg then -((natOfDigits I : ℚ) + (natOfDigits F : ℚ) / (10 : ℚ) ^ F.length)
  else (natOfDigits I : ℚ) + (natOfDigits F : ℚ) / (10 : ℚ) ^ F.length

/-- Whether a rational number is a finite `double`: an integer significand below
`2^53` in magnitude times a power of two with exponent from -1074 to 971. -/
def isDouble (q : ℚ) : Prop :=
  ∃ m e : Int, |m| < 2 ^ 53 ∧ -1074 ≤ e ∧ e ≤ 971 ∧ q = (m : ℚ) * (2 : ℚ) ^ e

/-! ## Lemmas about the string operations -/

theorem findAux_shift (needle : Bytes) (t : Bytes) (i : Nat) :
    findAux needle t i = (findAux needle t 0).map (· + i) := by
  induction t generalizing i with
  | nil => simp [findAux]
  | cons c cs ih =>
    simp only [findAux]
    split
    · simp
    · rw [ih (i + 1), ih (0 + 1)]
      simp [Option.map_map, Function.comp_def]
      congr 1; funext x; omega

theorem find_eq_map (h needle : Bytes) (pos : Nat) (hp : pos ≤ h.length) :
    find h needle pos = (findAux needle (h.drop pos) 0).map (· + pos) := by
  unfold find
  rw [if_pos hp, findAux_shift]

theorem splitCRLF_ne_nil (t : Bytes) : splitCRLF t ≠ [] := by
  match t with
  | [] => simp [splitCRLF]
  | [c] => simp [splitCRLF]
  | c :: d :: rest =>
    simp only [splitCRLF]
    split
    · simp
    · cases h : splitCRLF (d :: rest) <;> simp [consHead]

theorem findAux_crlf_none (t : Bytes) (h : findAux ['\r', '\n'] t 0 = none) :
    splitCRLF t = [t] := by
  induction t using splitCRLF.induct with
  | case1 => rfl
  | case2 c => rfl
  | case3 c d rest hcd ih =>
    simp [findAux, List.isPrefixOf, hcd.1, hcd.2] at h
  | case4 c d rest hcd ih =>
    rw [splitCRLF, if_neg hcd]
    rw [findAux] at h
    have hp : List.isPrefixOf ['\r', '\n'] (c :: d :: rest) = false := by
      simp [List.isPrefixOf]; intro h1 h2; exact hcd ⟨h1.symm ▸ rfl, h2.symm ▸ rfl⟩ 
    simp [hp] at h
    rw [findAux_shift] at h
    simp at h
    rw [ih h]; rfl

theorem findAux_crlf_some (t : Bytes) (k : Nat) (h : findAux ['\r', '\n'] t 0 = some k) :
    k + 2 ≤ t.length ∧ splitCRLF t = t.take k :: splitCRLF (t.drop (k + 2)) := by
  induction t using splitCRLF.induct generalizing k with
  | case1 => simp [findAux, List.isPrefixOf] at h
  | case2 c => simp [findAux, List.isPrefixOf] at h
  | case3 c d rest hcd =>
    simp [findAux, List.isPrefixOf, hcd.1, hcd.2] at h
    subst h
    simp [splitCRLF, hcd.1, hcd.2]
  | case4 c d rest hcd ih =>
    rw [splitCRLF, if_neg hcd]
    rw [findAux] at h
    have hp : List.isPrefixOf ['\r', '\n'] (c :: d :: rest) = false := by
      simp [List.isPrefixOf]; intro h1 h2; exact hcd ⟨h1.symm ▸ rfl, h2.symm ▸ rfl⟩
    simp [hp] at h
    rw [findAux_shift] at h
    simp at h
    obtain ⟨k1, hk1, rfl⟩ := h
    obtain ⟨hlen, hs⟩ := ih k1 hk1
    constructor
    · simp at hlen ⊢; omega
    · rw [hs]; simp [consHead]

theorem findAux_some_spec (needle t : Bytes) (k : Nat) (h : findAux needle t 0 = some k) :
    needle <+: t.drop k ∧ ∀ j, j < k → ¬ needle <+: t.drop j := by
  induction t generalizing k with
  | nil =>
    simp [findAux] at h
    obtain ⟨h1, rfl⟩ := h
    simp [h1]
  | cons c cs ih =>
    rw [findAux] at h
    by_cases hp : needle.isPrefixOf (c :: cs) = true
    · simp [hp] at h
      subst h
      simp
      exact List.isPrefixOf_iff_prefix.mp hp
    · simp [hp] at h
      rw [findAux_shift] at h
      simp at h
      obtain ⟨k1, hk1, rfl⟩ := h
      obtain ⟨h1, h2⟩ := ih k1 hk1
      refine ⟨by simpa using h1, ?_⟩
      intro j hj
      cases j with
      | zero => simpa [List.isPrefixOf_iff_prefix] using hp
      | succ j => simpa using h2 j (by omega)

theorem findAux_none_spec (needle t : Bytes) (h : findAux needle t 0 = none) :
    ∀ j, ¬ needle <+: t.drop j := by
  induction t with
  | nil =>
    simp [findAux] at h
    intro j; simpa using h
  | cons c cs ih =>
    rw [findAux] at h
    by_cases hp : needle.isPrefixOf (c :: cs) = true
    · simp [hp] at h
    · simp [hp] at h
      rw [findAux_shift] at h
      simp at h
      intro j
      cases j with
      | zero => simpa [List.isPrefixOf_iff_prefix] using hp
      | succ j => simpa using ih h j

theorem findAux_of_infix (needle t : Bytes) (h : needle <:+: t) :
    ∃ k, findAux needle t 0 = some k := by
  cases hf : findAux needle t 0 with
  | some k => exact ⟨k, rfl⟩
  | none =>
    exfalso
    obtain ⟨s, u, rfl⟩ := h
    apply findAux_none_spec needle _ hf s.length
    simp [List.append_assoc]

/-- The row loop of `parseTable` started at `rowStart` with enough iterations. -/
theorem parseRows_eq (data : Bytes) (fuel rowStart : Nat) (acc : List MountPoint)
    (hs : rowStart ≤ data.length) (hf : data.length - rowStart < fuel) :
    parseRows data fuel rowStart (find data ['\r', '\n'] rowStart) acc =
      some (acc ++ (((splitCRLF (data.drop rowStart)).dropLast).filter
        (fun r => decide (r ≠ endRow))).map mkMountPoint) := by
  induction fuel generalizing rowStart acc with
  | zero => omega
  | succ fuel ih =>
    rw [find_eq_map _ _ _ hs]
    cases hk : findAux ['\r', '\n'] (data.drop rowStart) 0 with
    | none =>
      rw [findAux_crlf_none _ hk]
      simp [parseRows]
    | some k =>
      obtain ⟨hlen, hsplit⟩ := findAux_crlf_some _ k hk
      simp only [List.length_drop] at hlen
      simp only [Option.map_some', parseRows]
      rw [ih (k + rowStart + 2) _ (by omega) (by omega)]
      rw [hsplit, List.dropLast_cons_of_ne_nil (splitCRLF_ne_nil _)]
      have h1 : substr data rowStart (k + rowStart - rowStart) = (data.drop rowStart).take k := by
        simp [substr]
      have h2 : List.drop (k + rowStart + 2) data = List.drop (k + 2) (List.drop rowStart data) := by
        rw [List.drop_drop]; congr 1; omega
      rw [h1, h2]
      by_cases he : List.take k (List.drop rowStart data) = endRow
      · simp [he, List.filter_cons]
      · simp [he, List.filter_cons, mkMountPoint]

theorem consHead_length (c : Char) (l : List Bytes) (h : l ≠ []) :
    (consHead c l).length = l.length := by
  cases l with
  | nil => exact absurd rfl h
  | cons r rs => rfl

theorem fields_ne_nil (t : Bytes) : fields t ≠ [] := by
  cases t with
  | nil => simp [fields]
  | cons c cs =>
    simp only [fields]
    split
    · simp
    · cases h : fields cs <;> simp [consHead]

theorem fields_length (t : Bytes) : (fields t).length = t.count ';' + 1 := by
  induction t with
  | nil => rfl
  | cons c cs ih =>
    simp only [fields]
    by_cases hc : c = ';'
    · subst hc; simp [ih]
    · rw [if_neg hc, consHead_length _ _ (fields_ne_nil cs), ih, List.count_cons_of_ne (Ne.symm hc)]

theorem findAux_semi_none (t : Bytes) (h : findAux [';'] t 0 = none) : fields t = [t] := by
  induction t with
  | nil => rfl
  | cons c cs ih =>
    rw [findAux] at h
    by_cases hc : c = ';'
    · subst hc; simp [List.isPrefixOf] at h
    · have hp : List.isPrefixOf [';'] (c :: cs) = false := by
        simp [List.isPrefixOf]; exact fun h => hc h.symm
      simp [hp] at h
      rw [findAux_shift] at h
      simp at h
      simp [fields, hc, ih h, consHead]

theorem findAux_semi_some (t : Bytes) (k : Nat) (h : findAux [';'] t 0 = some k) :
    k + 1 ≤ t.length ∧ fields t = t.take k :: fields (t.drop (k + 1)) := by
  induction t generalizing k with
  | nil => simp [findAux, List.isPrefixOf] at h
  | cons c cs ih =>
    rw [findAux] at h
    by_cases hc : c = ';'
    · subst hc
      simp [List.isPrefixOf] at h
      subst h
      simp [fields]
    · have hp : List.isPrefixOf [';'] (c :: cs) = false := by
        simp [List.isPrefixOf]; exact fun h => hc h.symm
      simp [hp] at h
      rw [findAux_shift] at h
      simp at h
      obtain ⟨k1, hk1, rfl⟩ := h
      obtain ⟨hlen, hs⟩ := ih k1 hk1
      constructor
      · simp; omega
      · simp [fields, hc, hs, consHead]

/-- What `getName` returns, in terms of the fields of the row. -/
theorem getName_spec (row : Bytes) :
    (2 ≤ row.count ';' → (fields row)[1]? = some (getName row)) ∧
    (row.count ';' < 2 → getName row = []) := by
  have hlen := fields_length row
  unfold getName
  rw [find_eq_map _ _ _ (Nat.zero_le _)]
  simp only [List.drop_zero, Nat.add_zero]
  cases h1 : findAux [';'] row 0 with
  | none => 
    rw [findAux_semi_none _ h1] at hlen
    simp at hlen
    simp [hlen]
  | some k =>
    obtain ⟨hk, hs⟩ := findAux_semi_some _ k h1
    simp only [Option.map_some', id_eq]
    rw [find_eq_map _ _ _ (by simpa using hk)]
    cases h2 : findAux [';'] (row.drop (k + 1)) 0 with
    | none =>
      rw [hs, findAux_semi_none _ h2] at hlen
      simp at hlen
      have : List.count ';' row = 1 := by omega
      simp [this]
    | some m =>
      obtain ⟨hm, hs2⟩ := findAux_semi_some _ m h2
      rw [hs, hs2] at hlen
      simp only [List.length_cons] at hlen
      have hpos := List.length_pos.mpr (fields_ne_nil (List.drop (m + 1) (List.drop (k + 1) row)))
      have : ¬ List.count ';' row < 2 := by omega
      simp [this, hs, hs2, substr]

theorem find_Nth_succ (line needle : Bytes) (n pos : Nat) :
    find_Nth line pos needle (n + 1) =
      match find_Nth line pos needle n with
      | none => none
      | some p => find line needle (p + 1) := by
  induction n generalizing pos with
  | zero =>
    simp only [find_Nth]
  | succ n ih =>
    rw [find_Nth]
    cases hf : find line needle pos with
    | none => simp [find_Nth, hf]
    | some f =>
      simp only []
      rw [ih (f + 1)]
      conv_rhs => rw [find_Nth, hf]

theorem find_Nth_fields (line : Bytes) (n pos : Nat) (hpos : pos ≤ line.length) :
    (∀ p, find_Nth line pos [';'] n = some p →
      p < line.length ∧ (fields (line.drop pos)).drop (n + 1) = fields (line.drop (p + 1))) ∧
    (find_Nth line pos [';'] n = none → (fields (line.drop pos)).length ≤ n + 1) := by
  induction n generalizing pos with
  | zero =>
    simp only [find_Nth]
    rw [find_eq_map _ _ _ hpos]
    cases hk : findAux [';'] (line.drop pos) 0 with
    | none => simp [findAux_semi_none _ hk]
    | some k =>
      obtain ⟨hlen, hs⟩ := findAux_semi_some _ k hk
      simp only [List.length_drop] at hlen
      simp only [Option.map_some', Option.some.injEq, reduceCtorEq, false_implies, and_true]
      intro p hp
      subst hp
      refine ⟨by omega, ?_⟩
      rw [hs]
      simp [List.drop_drop]
      congr 2; omega
  | succ n ih =>
    rw [find_Nth, find_eq_map _ _ _ hpos]
    cases hk : findAux [';'] (line.drop pos) 0 with
    | none => simp [findAux_semi_none _ hk]
    | some k =>
      obtain ⟨hlen, hs⟩ := findAux_semi_some _ k hk
      simp only [List.length_drop] at hlen
      simp only [Option.map_some']
      obtain ⟨ih1, ih2⟩ := ih (k + pos + 1) (by omega)
      have hd : List.drop (k + 1) (List.drop pos line) = List.drop (k + pos + 1) line := by
        rw [List.drop_drop]; congr 1; omega
      rw [hs, hd]
      constructor
      · intro p hp
        obtain ⟨h1, h2⟩ := ih1 p hp
        exact ⟨h1, by simpa using h2⟩
      · intro hp
        have := ih2 hp
        simp; omega

/-- The field `parse(n)` cuts out is field `n + 1` of the row. -/
theorem parseField_eq (line : Bytes) (n : Nat) (hlen : line.length < sizeMod)
    (hn : n + 1 ≤ line.count ';') : (fields line)[n + 1]? = some (parseField line n) := by
  have hfl := fields_length line
  obtain ⟨h1, h2⟩ := find_Nth_fields line n 0 (Nat.zero_le _)
  simp only [List.drop_zero] at h1 h2
  unfold parseField
  rw [find_Nth_succ]
  cases hp : find_Nth line 0 [';'] n with
  | none => have := h2 hp; omega
  | some p =>
    obtain ⟨hpl, hd⟩ := h1 p hp
    have hget : (fields line)[n + 1]? = (fields (line.drop (p + 1))).head? := by
      rw [← hd, List.head?_drop]
    rw [hget]
    simp only [posValue]
    rw [Nat.mod_eq_of_lt (by omega), find_eq_map _ _ _ (by omega)]
    cases hk : findAux [';'] (line.drop (p + 1)) 0 with
    | none =>
      rw [findAux_semi_none _ hk]
      simp only [Option.map_none', posValue, npos, List.head?_cons, substr, Option.some.injEq]
      symm
      apply List.take_of_length_le
      simp only [List.length_drop, sizeMod] at hlen ⊢
      omega
    | some m =>
      obtain ⟨hm, hs⟩ := findAux_semi_some _ m hk
      simp only [List.length_drop] at hm
      rw [hs]
      simp only [Option.map_some', posValue, List.head?_cons, substr, Option.some.injEq]
      congr 1
      simp only [sizeMod] at hlen ⊢
      omega

theorem findAux_dot (a b : Bytes) (ha : ∀ c ∈ a, c ≠ '.') :
    findAux ['.'] (a ++ '.' :: b) 0 = some a.length := by
  induction a with
  | nil => simp [findAux, List.isPrefixOf]
  | cons c cs ih =>
    have hc : c ≠ '.' := ha c (by simp)
    have hp : List.isPrefixOf ['.'] (c :: (cs ++ '.' :: b)) = false := by
      simp [List.isPrefixOf]; exact fun h => hc h.symm
    rw [List.cons_append, findAux, hp]
    simp only [Bool.false_eq_true, if_false]
    rw [findAux_shift, ih (fun c h => ha c (by simp [h]))]
    simp

theorem isDigit_ne_dot (c : Char) (h : isDigit c = true) : c ≠ '.' := by
  rintro rfl
  revert h; decide

theorem isDigit_ne_minus (c : Char) (h : isDigit c = true) : c ≠ '-' := by
  rintro rfl
  revert h; decide

theorem takeWhile_digits (ds : Bytes) (h : ∀ c ∈ ds, isDigit c = true) :
    ds.takeWhile isDigit = ds := by
  rw [List.takeWhile_eq_self_iff]; exact h

theorem from_chars_digits (ds : Bytes) (v : Int) (hne : ds ≠ []) (h : ∀ c ∈ ds, isDigit c = true)
    (hr : (natOfDigits ds : Int) ≤ INT_MAX) : from_chars ds v = natOfDigits ds := by
  cases ds with
  | nil => exact absurd rfl hne
  | cons c cs =>
    have hc : c ≠ '-' := isDigit_ne_minus c (h c (by simp))
    have hmin : INT_MIN ≤ (natOfDigits (c :: cs) : Int) := by
      have : (0 : Int) ≤ (natOfDigits (c :: cs) : Int) := Int.natCast_nonneg _
      unfold INT_MIN; omega
    simp [from_chars, hc, takeWhile_digits _ h, hr, hmin]

theorem from_chars_minus_digits (ds : Bytes) (v : Int) (hne : ds ≠ [])
    (h : ∀ c ∈ ds, isDigit c = true) (hr : INT_MIN ≤ -(natOfDigits ds : Int)) :
    from_chars ('-' :: ds) v = -(natOfDigits ds : Int) := by
  have hmax : -(natOfDigits ds : Int) ≤ INT_MAX := by
    have : (0 : Int) ≤ (natOfDigits ds : Int) := Int.natCast_nonneg _
    unfold INT_MAX; omega
  simp [from_chars, takeWhile_digits _ h, hr, hmax, hne]

theorem from_chars_signed (neg : Bool) (ds : Bytes) (v : Int) (hne : ds ≠ [])
    (h : ∀ c ∈ ds, isDigit c = true) (hlo : INT_MIN ≤ signedVal neg ds)
    (hhi : signedVal neg ds ≤ INT_MAX) :
    from_chars (signText neg ++ ds) v = signedVal neg ds := by
  cases neg with
  | true => simpa [signText, signedVal] using from_chars_minus_digits ds v hne h (by simpa [signedVal] using hlo)
  | false => simpa [signText, signedVal] using from_chars_digits ds v hne h (by simpa [signedVal] using hhi)

theorem parseValue_split (I F : Bytes) (hI : ∀ c ∈ I, c ≠ '.') :
    parseValue (I ++ '.' :: F) =
      roundDouble (fracQuotient (from_chars F 0) F.length + ((from_chars I 0 : Int) : ℚ)) := by
  unfold parseValue
  rw [find_eq_map _ _ _ (Nat.zero_le _)]
  simp only [List.drop_zero, findAux_dot I F hI, Option.map_some', Nat.add_zero]
  simp [substr, substrFrom]

/-- The terminator test of the wait loop is the suffix relation. -/
theorem endsWith_iff (text ending : Bytes) : endsWith text ending = true ↔ ending <:+ text := by
  unfold endsWith substr
  rw [List.suffix_iff_eq_drop]
  simp only [Bool.and_eq_true, decide_eq_true_eq, beq_iff_eq, ge_iff_le]
  constructor
  · rintro ⟨hl, he⟩
    rw [List.take_of_length_le (by simp only [List.length_drop]; omega)] at he
    exact he.symm
  · intro he
    have hl : ending.length ≤ text.length := by
      have := congrArg List.length he
      simp only [List.length_drop] at this; omega
    refine ⟨hl, ?_⟩
    rw [List.take_of_length_le (by simp only [List.length_drop]; omega), ← he]

/-- The lambda `startsWith` is the initial-segment relation. -/
theorem startsWith_iff (text start : Bytes) : startsWith text start = true ↔ start <+: text := by
  unfold startsWith substr
  rw [List.prefix_iff_eq_take]
  by_cases hl : start.length > text.length
  · simp only [hl, if_true, Bool.false_eq_true, false_iff]
    intro he
    have := congrArg List.length he
    simp at this; omega
  · simp only [hl, if_false, List.drop_zero, beq_iff_eq]
    exact eq_comm

theorem received_zero (script : List Poll) : received script 0 = [] := by
  simp [received]

theorem received_nil (k : Nat) : received [] k = [] := by
  simp [received]

theorem received_cons (p : Poll) (script : List Poll) (k : Nat) :
    received (p :: script) (k + 1) = p.chunk ++ received script k := by
  simp [received]

theorem connectWait_no_failure (n : Nat) (script : List Poll) (buf : Bytes) (polls : Nat)
    (h : ∀ p ∈ script, p ≠ Poll.failure) :
    ∃ k, k ≤ n ∧ connectWait n script buf polls =
      { failed := false, text := buf ++ received script k, polls := polls + k,
        rest := script.drop k } := by
  induction n generalizing script buf polls with
  | zero => exact ⟨0, le_refl _, by simp [connectWait, received_zero]⟩
  | succ n ih =>
    cases script with
    | nil =>
      obtain ⟨k, hk, he⟩ := ih [] buf (polls + 1) (by simp)
      refine ⟨k + 1, by omega, ?_⟩
      simp only [connectWait, nextPoll, Poll.avail, List.head?_nil, Option.getD_none,
        List.length_nil, List.tail_nil]
      simp only [Nat.cast_zero, lt_self_iff_false, if_false]
      rw [he]
      simp [received_nil]; omega
    | cons p rest =>
      have hp : p ≠ Poll.failure := h p (by simp)
      have hrest : ∀ q ∈ rest, q ≠ Poll.failure := fun q hq => h q (by simp [hq])
      cases p with
      | failure => exact absurd rfl hp
      | data chunk =>
        simp only [connectWait, nextPoll, Poll.avail, Poll.chunk, List.head?_cons,
          Option.getD_some, List.tail_cons]
        have hneg : ¬ ((chunk.length : Int) < 0) := by omega
        rw [if_neg hneg]
        by_cases hc : (chunk.length : Int) > 0
        · rw [if_pos hc]
          by_cases he : endsWith (buf ++ chunk) ['\r', '\n', '\r', '\n'] = true
          · rw [if_pos he]
            exact ⟨1, by omega, by simp [received, Poll.chunk]⟩
          · rw [if_neg he]
            obtain ⟨k, hk, hw⟩ := ih rest (buf ++ chunk) (polls + 1) hrest
            refine ⟨k + 1, by omega, ?_⟩
            rw [hw, received_cons]
            simp [Poll.chunk]; omega
        · rw [if_neg hc]
          have hnil : chunk = [] := by
            cases chunk with
            | nil => rfl
            | cons c cs => simp at hc
          obtain ⟨k, hk, hw⟩ := ih rest buf (polls + 1) hrest
          refine ⟨k + 1, by omega, ?_⟩
          rw [hw, received_cons]
          simp [Poll.chunk, hnil]; omega

theorem connectWait_unterminated (n : Nat) (script : List Poll) (buf : Bytes) (polls : Nat)
    (hnt : ∀ k, 1 ≤ k → k ≤ n → ¬ ['\r', '\n', '\r', '\n'] <:+ buf ++ received script k) :
    (Poll.failure ∉ script.take n → connectWait n script buf polls =
      { failed := false, text := buf ++ received script n, polls := polls + n,
        rest := script.drop n }) ∧
    (Poll.failure ∈ script.take n → (connectWait n script buf polls).failed = true) := by
  induction n generalizing script buf polls with
  | zero => simp [connectWait, received_zero]
  | succ n ih =>
    cases script with
    | nil =>
      obtain ⟨ih1, _⟩ := ih [] buf (polls + 1)
        (fun k h1 h2 => by simpa [received_nil] using hnt k h1 (by omega))
      simp only [connectWait, nextPoll, Poll.avail, List.head?_nil, Option.getD_none,
        List.length_nil, List.tail_nil]
      simp only [Nat.cast_zero, lt_self_iff_false, if_false]
      rw [ih1 (by simp)]
      simp [received_nil]; omega
    | cons p rest =>
      cases p with
      | failure => simp [connectWait, nextPoll, Poll.avail]
      | data chunk =>
        have hmem : Poll.failure ∈ List.take (n + 1) (Poll.data chunk :: rest) ↔
            Poll.failure ∈ List.take n rest := by simp
        rw [hmem]
        simp only [connectWait, nextPoll, Poll.avail, Poll.chunk, List.head?_cons,
          Option.getD_some, List.tail_cons]
        have hneg : ¬ ((chunk.length : Int) < 0) := by omega
        rw [if_neg hneg]
        by_cases hc : (chunk.length : Int) > 0
        · rw [if_pos hc]
          have he : ¬ endsWith (buf ++ chunk) ['\r', '\n', '\r', '\n'] = true := by
            rw [endsWith_iff]
            simpa [received_cons, received_zero, Poll.chunk] using hnt 1 (le_refl _) (by omega)
          rw [if_neg he]
          obtain ⟨ih1, ih2⟩ := ih rest (buf ++ chunk) (polls + 1)
            (fun k h1 h2 => by
              simpa [received_cons, Poll.chunk] using hnt (k + 1) (by omega) (by omega))
          refine ⟨fun hm => ?_, ih2⟩
          rw [ih1 hm, received_cons]
          simp [Poll.chunk]; omega
        · rw [if_neg hc]
          have hnil : chunk = [] := by
            cases chunk with
            | nil => rfl
            | cons c cs => simp at hc
          subst hnil
          obtain ⟨ih1, ih2⟩ := ih rest buf (polls + 1)
            (fun k h1 h2 => by
              simpa [received_cons, Poll.chunk] using hnt (k + 1) (by omega) (by omega))
          refine ⟨fun hm => ?_, ih2⟩
          rw [ih1 hm, received_cons]
          simp [Poll.chunk]; omega

theorem connectWait_silent (n : Nat) (script : List Poll) (buf : Bytes) (polls : Nat)
    (h : ∀ p ∈ script, p = Poll.data []) :
    (connectWait n script buf polls).polls = polls + n := by
  induction n generalizing script polls with
  | zero => rfl
  | succ n ih =>
    cases script with
    | nil =>
      simp only [connectWait, nextPoll, Poll.avail, List.head?_nil, Option.getD_none,
        List.length_nil, List.tail_nil]
      simp only [Nat.cast_zero, lt_self_iff_false, if_false]
      rw [ih [] _ (by simp)]; omega
    | cons p rest =>
      have hp : p = Poll.data [] := h p (by simp)
      subst hp
      simp only [connectWait, nextPoll, Poll.avail, List.head?_cons, Option.getD_some,
        List.length_nil, List.tail_cons]
      simp only [Nat.cast_zero, lt_self_iff_false, if_false]
      rw [ih rest _ (fun q hq => h q (by simp [hq]))]; omega

theorem tableWait_silent (n : Nat) (script : List Poll) (buf : Bytes) (polls : Nat)
    (h : ∀ p ∈ script, p = Poll.data []) :
    (tableWait n script buf polls).polls = polls + n ∧
      (tableWait n script buf polls).failed = false := by
  induction n generalizing script polls with
  | zero => exact ⟨rfl, rfl⟩
  | succ n ih =>
    cases script with
    | nil =>
      simp only [tableWait, nextPoll, Poll.avail, List.head?_nil, Option.getD_none,
        List.length_nil, List.tail_nil]
      simp only [Nat.cast_zero, lt_self_iff_false, if_false]
      obtain ⟨h1, h2⟩ := ih [] (polls + 1) (by simp)
      exact ⟨by rw [h1]; omega, h2⟩
    | cons p rest =>
      have hp : p = Poll.data [] := h p (by simp)
      subst hp
      simp only [tableWait, nextPoll, Poll.avail, List.head?_cons, Option.getD_some,
        List.length_nil, List.tail_cons]
      simp only [Nat.cast_zero, lt_self_iff_false, if_false]
      obtain ⟨h1, h2⟩ := ih rest (polls + 1) (fun q hq => h q (by simp [hq]))
      exact ⟨by rw [h1]; omega, h2⟩

theorem splitCRLF_rows_no_crlf_aux (n : Nat) :
    ∀ t : Bytes, t.length ≤ n → ∀ r ∈ (splitCRLF t).dropLast, ¬ ['\r', '\n'] <:+: r := by
  induction n with
  | zero =>
    intro t ht
    have : t = [] := List.length_eq_zero.mp (by omega)
    subst this
    simp [splitCRLF]
  | succ n ih =>
    intro t ht
    cases hk : findAux ['\r', '\n'] t 0 with
    | none => simp [findAux_crlf_none _ hk]
    | some k =>
      obtain ⟨hlen, hsplit⟩ := findAux_crlf_some _ k hk
      obtain ⟨_, hfirst⟩ := findAux_some_spec _ _ k hk
      rw [hsplit, List.dropLast_cons_of_ne_nil (splitCRLF_ne_nil _)]
      intro r hr
      rcases List.mem_cons.mp hr with rfl | hr
      · rintro ⟨s, u, hsu⟩
        have hs : s.length + 2 ≤ k := by
          have := congrArg List.length hsu
          simp at this; omega
        apply hfirst s.length (by omega)
        have ht : t = s ++ ['\r', '\n'] ++ u ++ t.drop k := by
          rw [hsu, List.take_append_drop]
        rw [ht]
        simp [List.append_assoc]
      · exact ih (t.drop (k + 2)) (by simp only [List.length_drop]; omega) r hr

theorem splitCRLF_rows_no_crlf (t : Bytes) :
    ∀ r ∈ (splitCRLF t).dropLast, ¬ ['\r', '\n'] <:+: r :=
  splitCRLF_rows_no_crlf_aux t.length t (le_refl _)

/-- What `parseTable` returns, in terms of the split of the text behind the first `"\r\n\r\n"`. -/
theorem parseTable_eq (data : Bytes) :
    parseTable data = some
      (match findAux ['\r', '\n', '\r', '\n'] data 0 with
       | none => []
       | some k => ((((splitCRLF (data.drop (k + 4))).dropLast).filter
          (fun r => decide (r ≠ endRow))).map mkMountPoint)) := by
  unfold parseTable
  rw [find_eq_map _ _ _ (Nat.zero_le _)]
  simp only [List.drop_zero, Nat.add_zero]
  cases hk : findAux ['\r', '\n', '\r', '\n'] data 0 with
  | none => rfl
  | some k =>
    obtain ⟨⟨post, hpost⟩, _⟩ := findAux_some_spec _ _ k hk
    have hlen : k + 4 ≤ data.length := by
      have := congrArg List.length hpost
      simp at this; omega
    simp only [Option.map_some', id_eq]
    rw [parseRows_eq data _ _ [] hlen (by omega)]
    simp

/-- The row loop of `parseTable` never runs out of iterations. -/
theorem parseTable_total (data : Bytes) : ∃ mps, parseTable data = some mps :=
  ⟨_, parseTable_eq data⟩

/-- Every MountPoint of `parseTable` has its Reference and Name computed from its Raw. -/
theorem parseTable_mem (data : Bytes) (mps : List MountPoint) (mp : MountPoint)
    (h : parseTable data = some mps) (hm : mp ∈ mps) : mp = mkMountPoint mp.Raw := by
  rw [parseTable_eq] at h
  cases hk : findAux ['\r', '\n', '\r', '\n'] data 0 with
  | none =>
    rw [hk] at h
    simp at h
    subst h
    simp at hm
  | some k =>
    rw [hk] at h
    simp only [Option.some.injEq] at h
    subst h
    obtain ⟨r, _, rfl⟩ := List.mem_map.mp hm
    rfl

theorem natOfDigits_foldl_lt (ds : Bytes) (acc : Nat) (h : ∀ c ∈ ds, isDigit c = true) :
    ds.foldl (fun a c => 10 * a + digitVal c) acc + 1 ≤ (acc + 1) * 10 ^ ds.length := by
  induction ds generalizing acc with
  | nil => simp
  | cons c cs ih =>
    have hc : digitVal c ≤ 9 := by
      have hd := h c (by simp)
      simp [isDigit, Char.le_def] at hd
      have e2 : ('9' : Char).toNat = 57 := by decide
      have : c.toNat ≤ 57 := by
        rw [← e2]; exact hd.2
      have e1 : ('0' : Char).toNat = 48 := by decide
      unfold digitVal
      omega
    have := ih (10 * acc + digitVal c) (fun d hd => h d (by simp [hd]))
    simp only [List.foldl_cons, List.length_cons]
    calc List.foldl (fun a c => 10 * a + digitVal c) (10 * acc + digitVal c) cs + 1
        ≤ (10 * acc + digitVal c + 1) * 10 ^ cs.length := this
      _ ≤ (10 * acc + 10) * 10 ^ cs.length := Nat.mul_le_mul_right _ (by omega)
      _ = (acc + 1) * 10 ^ (cs.length + 1) := by ring

theorem natOfDigits_lt (ds : Bytes) (h : ∀ c ∈ ds, isDigit c = true) :
    natOfDigits ds < 10 ^ ds.length := by
  have := natOfDigits_foldl_lt ds 0 h
  unfold natOfDigits
  omega

theorem from_chars_digits_zero (ds : Bytes) (h : ∀ c ∈ ds, isDigit c = true)
    (hr : (natOfDigits ds : Int) ≤ INT_MAX) : from_chars ds 0 = natOfDigits ds := by
  cases ds with
  | nil => simp [from_chars, natOfDigits]
  | cons c cs => exact from_chars_digits _ 0 (by simp) h hr

/-! ### Binary64 rounding -/

theorem roundHalfEven_intCast (z : Int) : roundHalfEven (z : ℚ) = z := by
  simp [roundHalfEven]

theorem roundHalfEven_nonneg (x : ℚ) (h : 0 ≤ x) : 0 ≤ roundHalfEven x := by
  have hf : (0 : Int) ≤ ⌊x⌋ := Int.floor_nonneg.mpr h
  unfold roundHalfEven
  simp only []
  split_ifs <;> omega

theorem ulpExponent_le (m e : Int) (hm : |m| < 2 ^ 53) (hm0 : m ≠ 0) (he : -1074 ≤ e) :
    ulpExponent ((m : ℚ) * (2 : ℚ) ^ e) ≤ e := by
  unfold ulpExponent
  have hpos : (0 : ℚ) < |(m : ℚ) * (2 : ℚ) ^ e| := by
    apply abs_pos.mpr
    have : (m : ℚ) ≠ 0 := by exact_mod_cast hm0
    have h2 : ((2 : ℚ) ^ e) ≠ 0 := zpow_ne_zero _ (by norm_num)
    exact mul_ne_zero this h2
  have hlt : |(m : ℚ) * (2 : ℚ) ^ e| < ((2 : ℕ) : ℚ) ^ (53 + e) := by
    rw [abs_mul, abs_of_pos (zpow_pos (by norm_num : (0 : ℚ) < 2) e)]
    have hm' : |(m : ℚ)| < (2 : ℚ) ^ (53 : ℕ) := by exact_mod_cast hm
    have h2 : (0 : ℚ) < (2 : ℚ) ^ e := zpow_pos (by norm_num) e
    calc |(m : ℚ)| * (2 : ℚ) ^ e < (2 : ℚ) ^ (53 : ℕ) * (2 : ℚ) ^ e :=
          mul_lt_mul_of_pos_right hm' h2
      _ = ((2 : ℕ) : ℚ) ^ (53 + e) := by
          rw [Nat.cast_ofNat, zpow_add₀ (by norm_num : (2 : ℚ) ≠ 0)]; norm_num
  have hlog := (Int.lt_zpow_iff_log_lt (by norm_num : 1 < 2) hpos).mp hlt
  omega

theorem roundDouble_of_isDouble (q : ℚ) (h : isDouble q) : roundDouble q = q := by
  obtain ⟨m, e, hm, he, _, rfl⟩ := h
  by_cases hm0 : m = 0
  · subst hm0
    simp [roundDouble, roundHalfEven]
  · have hE := ulpExponent_le m e hm hm0 he
    unfold roundDouble
    set E := ulpExponent ((m : ℚ) * (2 : ℚ) ^ e) with hEdef
    obtain ⟨k, hk⟩ : ∃ k : ℕ, e = E + k := ⟨(e - E).toNat, by omega⟩
    have h2 : (2 : ℚ) ≠ 0 := by norm_num
    have hq : (m : ℚ) * (2 : ℚ) ^ e / (2 : ℚ) ^ E = ((m * 2 ^ k : Int) : ℚ) := by
      rw [hk, zpow_add₀ h2, zpow_natCast]
      have : ((2 : ℚ) ^ E) ≠ 0 := zpow_ne_zero _ h2
      field_simp
      ring
    rw [hq, roundHalfEven_intCast, hk, zpow_add₀ h2, zpow_natCast]
    push_cast
    ring


theorem roundDouble_zero : roundDouble 0 = 0 := by
  simp [roundDouble, roundHalfEven]

theorem roundDouble_nonneg (q : ℚ) (h : 0 ≤ q) : 0 ≤ roundDouble q := by
  unfold roundDouble
  have h2 : (0 : ℚ) < (2 : ℚ) ^ ulpExponent q := zpow_pos (by norm_num) _
  have hx : 0 ≤ q / (2 : ℚ) ^ ulpExponent q := div_nonneg h (le_of_lt h2)
  have := roundHalfEven_nonneg _ hx
  have hc : (0 : ℚ) ≤ (roundHalfEven (q / (2 : ℚ) ^ ulpExponent q) : ℚ) := by exact_mod_cast this
  exact mul_nonneg hc (le_of_lt h2)

theorem isDouble_intCast (z : Int) (h : |z| < 2 ^ 53) : isDouble (z : ℚ) :=
  ⟨z, 0, h, by norm_num, by norm_num, by simp⟩

theorem isDouble_pow10 (n : Nat) (h : n ≤ 22) : isDouble ((10 : ℚ) ^ n) := by
  refine ⟨(5 : Int) ^ n, n, ?_, by omega, by omega, ?_⟩
  · have h5 : (5 : Int) ^ n ≤ 5 ^ 22 := pow_le_pow_right₀ (by norm_num) h
    have hpos : (0 : Int) < 5 ^ n := by positivity
    rw [abs_of_pos hpos]
    calc (5 : Int) ^ n ≤ 5 ^ 22 := h5
      _ < 2 ^ 53 := by norm_num
  · rw [zpow_natCast]
    push_cast
    rw [← mul_pow]
    norm_num

theorem pow10_of_le (n : Nat) (h : n ≤ 22) : pow10 n = some ((10 : ℚ) ^ n) := by
  unfold pow10
  rw [if_pos (by omega), roundDouble_of_isDouble _ (isDouble_pow10 n h)]

theorem roundDouble_dyadic (q : ℚ) : ∃ m e : Int, roundDouble q = (m : ℚ) * (2 : ℚ) ^ e :=
  ⟨_, _, rfl⟩

theorem tenth_not_dyadic (m e : Int) : (1 : ℚ) / 10 ≠ (m : ℚ) * (2 : ℚ) ^ e := by
  intro h
  have h2 : (2 : ℚ) ≠ 0 := by norm_num
  rcases le_or_lt 0 e with he | he
  · obtain ⟨k, rfl⟩ := Int.eq_ofNat_of_zero_le he
    rw [zpow_natCast] at h
    have h1 : (1 : ℚ) = ((10 * (m * 2 ^ k) : Int) : ℚ) := by
      push_cast
      rw [← h]
      norm_num
    have h3 : (1 : Int) = 10 * (m * 2 ^ k) := by exact_mod_cast h1
    omega
  · obtain ⟨k, hk⟩ : ∃ k : ℕ, e = -(k : Int) := ⟨(-e).toNat, by omega⟩
    rw [hk, zpow_neg, zpow_natCast] at h
    have hp : ((2 : ℚ) ^ k) ≠ 0 := pow_ne_zero _ h2
    have h1 : ((2 ^ k : Int) : ℚ) = ((10 * m : Int) : ℚ) := by
      push_cast
      field_simp at h
      linarith
    have h3 : (2 : Int) ^ k = 10 * m := by exact_mod_cast h1
    have h5 : (5 : Int) ∣ 2 ^ k := ⟨2 * m, by rw [h3]; ring⟩
    have hprime : Prime (5 : Int) := by
      rw [Int.prime_iff_natAbs_prime]
      norm_num
    have := hprime.dvd_of_dvd_pow h5
    omega


theorem roundHalfEven_abs_le (x : ℚ) (N : Int) (h : |x| < (N : ℚ)) : |roundHalfEven x| ≤ N := by
  have hlt := abs_lt.mp h
  have hf1 : ⌊x⌋ < N := Int.floor_lt.mpr hlt.2
  have hf2 : -N ≤ ⌊x⌋ := Int.le_floor.mpr (by push_cast; exact le_of_lt hlt.1)
  rw [abs_le]
  unfold roundHalfEven
  simp only []
  split_ifs <;> constructor <;> omega

theorem scaled_abs_lt (q : ℚ) : |q / (2 : ℚ) ^ ulpExponent q| < (2 : ℚ) ^ (53 : ℕ) := by
  have h2 : (0 : ℚ) < (2 : ℚ) ^ ulpExponent q := zpow_pos (by norm_num) _
  rw [abs_div, abs_of_pos h2, div_lt_iff₀ h2]
  have hlog := Int.lt_zpow_succ_log_self (by norm_num : 1 < 2) |q|
  have hE : Int.log 2 |q| - 52 ≤ ulpExponent q := le_max_left _ _
  calc |q| < ((2 : ℕ) : ℚ) ^ (Int.log 2 |q| + 1) := hlog
    _ = (2 : ℚ) ^ (53 : ℕ) * (2 : ℚ) ^ (Int.log 2 |q| - 52) := by
        rw [Nat.cast_ofNat, ← zpow_natCast, ← zpow_add₀ (by norm_num : (2 : ℚ) ≠ 0)]
        congr 1
        push_cast
        ring
    _ ≤ (2 : ℚ) ^ (53 : ℕ) * (2 : ℚ) ^ ulpExponent q := by
        apply mul_le_mul_of_nonneg_left _ (by positivity)
        exact zpow_le_zpow_right₀ (by norm_num) hE

theorem ulpExponent_le_of_lt (q : ℚ) (k : Int) (hk : 1 ≤ k) (hq : |q| < (2 : ℚ) ^ k) :
    ulpExponent q ≤ k - 53 := by
  unfold ulpExponent
  by_cases h0 : q = 0
  · subst h0
    simp [Int.log_zero_right]
    omega
  · have hpos : (0 : ℚ) < |q| := abs_pos.mpr h0
    have hq' : |q| < ((2 : ℕ) : ℚ) ^ k := by rw [Nat.cast_ofNat]; exact hq
    have hlog := (Int.lt_zpow_iff_log_lt (by norm_num : 1 < 2) hpos).mp hq'
    omega

theorem isDouble_roundDouble (q : ℚ) (hq : |q| < (2 : ℚ) ^ (1023 : ℤ)) :
    isDouble (roundDouble q) := by
  have hE1 : -1074 ≤ ulpExponent q := le_max_right _ _
  have hE2 : ulpExponent q ≤ 970 := by
    have := ulpExponent_le_of_lt q 1023 (by norm_num) hq
    omega
  have hM := roundHalfEven_abs_le (q / (2 : ℚ) ^ ulpExponent q) (2 ^ 53)
    (by push_cast; exact scaled_abs_lt q)
  unfold roundDouble
  rcases lt_or_eq_of_le hM with hlt | heq
  · exact ⟨_, ulpExponent q, hlt, hE1, by omega, rfl⟩
  · rcases abs_eq (by norm_num : (0 : Int) ≤ 2 ^ 53) |>.mp heq with hp | hn
    · refine ⟨2 ^ 52, ulpExponent q + 1, by norm_num, by omega, by omega, ?_⟩
      rw [hp, zpow_add₀ (by norm_num : (2 : ℚ) ≠ 0)]
      push_cast
      ring
    · refine ⟨-2 ^ 52, ulpExponent q + 1, by norm_num, by omega, by omega, ?_⟩
      rw [hn, zpow_add₀ (by norm_num : (2 : ℚ) ≠ 0)]
      push_cast
      ring

theorem roundDouble_idem (q : ℚ) (hq : |q| < (2 : ℚ) ^ (1023 : ℤ)) :
    roundDouble (roundDouble q) = roundDouble q :=
  roundDouble_of_isDouble _ (isDouble_roundDouble q hq)


theorem roundHalfEven_of_lt (x : ℚ) (f : Int) (h1 : (f : ℚ) ≤ x) (h2 : x < (f : ℚ) + 1 / 2) :
    roundHalfEven x = f := by
  have hf : ⌊x⌋ = f := Int.floor_eq_iff.mpr ⟨h1, by linarith⟩
  unfold roundHalfEven
  simp only [hf]
  rw [if_pos (by linarith)]

theorem roundHalfEven_of_gt (x : ℚ) (f : Int) (h1 : (f : ℚ) + 1 / 2 < x) (h2 : x < (f : ℚ) + 1) :
    roundHalfEven x = f + 1 := by
  have hf : ⌊x⌋ = f := Int.floor_eq_iff.mpr ⟨by linarith, h2⟩
  unfold roundHalfEven
  simp only [hf]
  rw [if_neg (by linarith), if_pos (by linarith)]

theorem ulpExponent_of_binade (q : ℚ) (k : Int) (hk : -1022 ≤ k)
    (h1 : (2 : ℚ) ^ k ≤ |q|) (h2 : |q| < (2 : ℚ) ^ (k + 1)) : ulpExponent q = k - 52 := by
  have hpos : (0 : ℚ) < |q| := lt_of_lt_of_le (zpow_pos (by norm_num) k) h1
  have hle : k ≤ Int.log 2 |q| :=
    (Int.zpow_le_iff_le_log (by norm_num : 1 < 2) hpos).mp (by rw [Nat.cast_ofNat]; exact h1)
  have hlt : Int.log 2 |q| < k + 1 :=
    (Int.lt_zpow_iff_log_lt (by norm_num : 1 < 2) hpos).mp (by rw [Nat.cast_ofNat]; exact h2)
  unfold ulpExponent
  have : Int.log 2 |q| = k := by omega
  rw [this]
  omega

theorem roundDouble_tenth : roundDouble (1 / 10) = 7205759403792794 / 2 ^ 56 := by
  have hE : ulpExponent (1 / 10) = -56 := by
    rw [ulpExponent_of_binade (1 / 10) (-4) (by norm_num)] <;> norm_num [abs_of_pos]
  unfold roundDouble
  rw [hE, roundHalfEven_of_gt _ 7205759403792793] <;> norm_num


theorem roundDouble_minus_five :
    roundDouble (roundDouble (1 / 10 ^ 20) + (-5)) = -5 := by
  have hE : ulpExponent (1 / 10 ^ 20) = -119 := by
    rw [ulpExponent_of_binade (1 / 10 ^ 20) (-67) (by norm_num)] <;> norm_num [abs_of_pos]
  have hd : roundDouble (1 / 10 ^ 20) = 6646139978924579 / 2 ^ 119 := by
    unfold roundDouble
    rw [hE, roundHalfEven_of_lt _ 6646139978924579] <;> norm_num
  rw [hd]
  have hE2 : ulpExponent (6646139978924579 / 2 ^ 119 + (-5)) = -50 := by
    rw [ulpExponent_of_binade _ 2 (by norm_num)] <;> norm_num [abs_of_neg]
  unfold roundDouble
  rw [hE2, roundHalfEven_of_lt _ (-5629499534213120)] <;> norm_num

theorem fracQuotient_of_le (frac : Int) (n : Nat) (h : n ≤ 22) :
    fracQuotient frac n = roundDouble ((frac : ℚ) / (10 : ℚ) ^ n) := by
  unfold fracQuotient
  rw [pow10_of_le n h]

theorem digit_quotient_lt_one (F : Bytes) (h : ∀ c ∈ F, isDigit c = true) :
    (natOfDigits F : ℚ) / (10 : ℚ) ^ F.length < 1 := by
  have hlt := natOfDigits_lt F h
  have hpos : (0 : ℚ) < (10 : ℚ) ^ F.length := by positivity
  rw [div_lt_one hpos]
  exact_mod_cast hlt

theorem hasTableEnding_eq_endsWith (data : Bytes) :
    hasTableEnding data = endsWith data tableEnding := by
  unfold hasTableEnding endsWith
  by_cases h : data.length ≥ tableEnding.length <;> simp [h]

/-- The classification of lines 210-217 applied to a response text. -/
theorem classify_cases (text : Bytes) :
    let result : status :=
      if startsWith text "HTTP/1.1 401 Unauthorized\r\n".toList then status.authfailure
      else if startsWith text "ICY 200 OK\r\n".toList then status.ok
      else status.error
    ("HTTP/1.1 401 Unauthorized\r\n".toList <+: text → result = status.authfailure) ∧
    ("ICY 200 OK\r\n".toList <+: text → result = status.ok) ∧
    (¬ "HTTP/1.1 401 Unauthorized\r\n".toList <+: text → ¬ "ICY 200 OK\r\n".toList <+: text →
      result = status.error) := by
  intro result
  refine ⟨fun h => ?_, fun h => ?_, fun h1 h2 => ?_⟩
  · simp only [result, (startsWith_iff _ _).mpr h, if_true]
  · have hne : ¬ "HTTP/1.1 401 Unauthorized\r\n".toList <+: text := by
      intro h401
      obtain ⟨a, ha⟩ := h
      obtain ⟨b, hb⟩ := h401
      have := ha.trans hb.symm
      simp at this
    have h401 : startsWith text "HTTP/1.1 401 Unauthorized\r\n".toList = false := by
      rw [← Bool.not_eq_true, startsWith_iff]; exact hne
    simp only [result, h401, (startsWith_iff _ _).mpr h, if_true, Bool.false_eq_true, if_false]
  · have h401 : startsWith text "HTTP/1.1 401 Unauthorized\r\n".toList = false := by
      rw [← Bool.not_eq_true, startsWith_iff]; exact h1
    have hicy : startsWith text "ICY 200 OK\r\n".toList = false := by
      rw [← Bool.not_eq_true, startsWith_iff]; exact h2
    simp only [result, h401, hicy, Bool.false_eq_true, if_false]

/-! ## The claims -/

/-- Claim C1, as amended: for every input that contains `"\r\n\r\n"`, cut at its first
occurrence into `pre`, the separator and `post`, `parseTable` returns MountPoints whose
Raw values, in order, are the pieces of `post` split on `"\r\n"` other than the last
piece (the text behind the last `"\r\n"`), with every piece equal to
`"ENDSOURCETABLE"` left out; no returned Raw is `"ENDSOURCETABLE"` and none contains
`"\r\n"`. -/
theorem parseTable_rows (data : Bytes) (h : ['\r', '\n', '\r', '\n'] <:+: data) :
    ∃ pre post mps, data = pre ++ ['\r', '\n', '\r', '\n'] ++ post ∧
      (∀ j, j < pre.length → ¬ ['\r', '\n', '\r', '\n'] <+: data.drop j) ∧
      parseTable data = some mps ∧
      mps.map MountPoint.Raw =
        ((splitCRLF post).dropLast).filter (fun r => decide (r ≠ endRow)) ∧
      ∀ mp ∈ mps, mp.Raw ≠ endRow ∧ ¬ ['\r', '\n'] <:+: mp.Raw := by
  obtain ⟨k, hk⟩ := findAux_of_infix _ _ h
  obtain ⟨⟨post, hpost⟩, hfirst⟩ := findAux_some_spec _ _ k hk
  have hklen : k ≤ data.length := by
    have := congrArg List.length hpost
    simp at this; omega
  have hdrop : data.drop (k + 4) = post := by
    have h4 : data.drop (k + 4) = (data.drop k).drop 4 := by
      rw [List.drop_drop]
    rw [h4, ← hpost]; rfl
  have hraw : List.map MountPoint.Raw (List.map mkMountPoint
      (((splitCRLF post).dropLast).filter (fun r => decide (r ≠ endRow)))) =
      ((splitCRLF post).dropLast).filter (fun r => decide (r ≠ endRow)) := by
    simp [List.map_map, Function.comp_def, mkMountPoint]
  refine ⟨data.take k, post, _, ?_, ?_, ?_, hraw, ?_⟩
  · rw [List.append_assoc, hpost, List.take_append_drop]
  · intro j hj
    exact hfirst j (by simpa [Nat.min_eq_left hklen] using hj)
  · simp only [parseTable_eq, hk, hdrop]
  · intro mp hmp
    obtain ⟨r, hr, rfl⟩ := List.mem_map.mp hmp
    obtain ⟨hr1, hr2⟩ := List.mem_filter.mp hr
    exact ⟨by simpa [mkMountPoint] using hr2, splitCRLF_rows_no_crlf post r hr1⟩

/-- The statement of C1 (amended) at a one-row source table. -/
theorem parseTable_rows_witness :
    ∃ pre post mps, "H\r\n\r\nA;n;\r\nENDSOURCETABLE\r\n".toList = pre ++ ['\r', '\n', '\r', '\n'] ++ post ∧
      (∀ j, j < pre.length → ¬ ['\r', '\n', '\r', '\n'] <+: "H\r\n\r\nA;n;\r\nENDSOURCETABLE\r\n".toList.drop j) ∧
      parseTable "H\r\n\r\nA;n;\r\nENDSOURCETABLE\r\n".toList = some mps ∧
      mps.map MountPoint.Raw =
        ((splitCRLF post).dropLast).filter (fun r => decide (r ≠ endRow)) ∧
      ∀ mp ∈ mps, mp.Raw ≠ endRow ∧ ¬ ['\r', '\n'] <:+: mp.Raw :=
  parseTable_rows "H\r\n\r\nA;n;\r\nENDSOURCETABLE\r\n".toList
    ⟨['H'], "A;n;\r\nENDSOURCETABLE\r\n".toList, by decide⟩

/-- Claim C1 as stated fails: behind the header of `"\r\n\r\nA\r\nB"` the text `"A\r\nB"`
splits into the rows `A` and `B`, but `parseTable` returns the row `A` only. -/
theorem parseTable_rows_cex :
    (parseTable "\r\n\r\nA\r\nB".toList).map (List.map MountPoint.Raw) = some [['A']] ∧
    (splitCRLF "A\r\nB".toList).filter (fun r => decide (r ≠ endRow)) = [['A'], ['B']] ∧
    (parseTable "\r\n\r\nA\r\nB".toList).map (List.map MountPoint.Raw) ≠
      some ((splitCRLF "A\r\nB".toList).filter (fun r => decide (r ≠ endRow))) := by
  decide

/-- Claim C2, as amended: for every row of at least 10 `;` separators that `parseTable`
turns into a MountPoint, Latitude is the coordinate decoding of field index 9 and
Longitude the coordinate decoding of field index 10 (0-based split on `;`). -/
theorem parseTable_reference (data : Bytes) (mps : List MountPoint) (mp : MountPoint)
    (h : parseTable data = some mps) (hm : mp ∈ mps)
    (hsep : 10 ≤ mp.Raw.count ';') (hlen : mp.Raw.length < sizeMod) :
    ∃ f9 f10, (fields mp.Raw)[9]? = some f9 ∧ (fields mp.Raw)[10]? = some f10 ∧
      mp.Reference.Latitude = parseValue f9 ∧ mp.Reference.Longitude = parseValue f10 := by
  have hmp := parseTable_mem data mps mp h hm
  refine ⟨parseField mp.Raw 8, parseField mp.Raw 9,
    parseField_eq mp.Raw 8 hlen (by omega), parseField_eq mp.Raw 9 hlen (by omega), ?_, ?_⟩
  · rw [hmp]; rfl
  · rw [hmp]; rfl

/-- The statement of C2 (amended) at a row of twelve fields. -/
theorem parseTable_reference_witness :
    ∃ f9 f10,
      (fields (mkMountPoint "STR;A;b;c;d;e;f;g;h;51;-7;x".toList).Raw)[9]? = some f9 ∧
      (fields (mkMountPoint "STR;A;b;c;d;e;f;g;h;51;-7;x".toList).Raw)[10]? = some f10 ∧
      (mkMountPoint "STR;A;b;c;d;e;f;g;h;51;-7;x".toList).Reference.Latitude = parseValue f9 ∧
      (mkMountPoint "STR;A;b;c;d;e;f;g;h;51;-7;x".toList).Reference.Longitude = parseValue f10 :=
  parseTable_reference "\r\n\r\nSTR;A;b;c;d;e;f;g;h;51;-7;x\r\n".toList
    [mkMountPoint "STR;A;b;c;d;e;f;g;h;51;-7;x".toList]
    (mkMountPoint "STR;A;b;c;d;e;f;g;h;51;-7;x".toList)
    (by rfl) (by simp) (by decide) (by decide)

/-- Claim C2 as stated fails: the row `0;1;2;3;4;5;6;7;8;9;10` has ten separators, its
fields 8 and 9 decode to 8 and 9, and its MountPoint has Latitude 9 and Longitude 10. -/
theorem parseTable_reference_cex :
    ∃ mp f8 f9, parseTable "\r\n\r\n0;1;2;3;4;5;6;7;8;9;10\r\n".toList = some [mp] ∧
      10 ≤ mp.Raw.count ';' ∧
      (fields mp.Raw)[8]? = some f8 ∧ (fields mp.Raw)[9]? = some f9 ∧
      mp.Reference.Latitude = 9 ∧ mp.Reference.Longitude = 10 ∧
      mp.Reference.Latitude ≠ parseValue f8 ∧ mp.Reference.Longitude ≠ parseValue f9 := by
  have h8 : parseValue ['8'] = 8 := by
    simp [parseValue, find, findAux, List.isPrefixOf]
    decide
  have h9 : parseValue ['9'] = 9 := by
    simp [parseValue, find, findAux, List.isPrefixOf]
    decide
  have hlat : (mkMountPoint "0;1;2;3;4;5;6;7;8;9;10".toList).Reference.Latitude = 9 := by
    have hf : parseField "0;1;2;3;4;5;6;7;8;9;10".toList 8 = ['9'] := by decide
    simp only [mkMountPoint, getReference, parse, hf, h9]
  have hlon : (mkMountPoint "0;1;2;3;4;5;6;7;8;9;10".toList).Reference.Longitude = 10 := by
    have hf : parseField "0;1;2;3;4;5;6;7;8;9;10".toList 9 = ['1', '0'] := by decide
    simp only [mkMountPoint, getReference, parse, hf]
    simp [parseValue, find, findAux, List.isPrefixOf]
    decide
  refine ⟨mkMountPoint "0;1;2;3;4;5;6;7;8;9;10".toList, ['8'], ['9'], by rfl, by decide,
    by decide, by decide, hlat, hlon, ?_, ?_⟩
  · rw [hlat, h8]; norm_num
  · rw [hlon, h9]; norm_num

/-- Claim C3, as amended: the Name of a MountPoint of `parseTable` is field index 1 of
its row split on `;` whenever the row has at least two `;`, and is empty when the row
has fewer than two. -/
theorem parseTable_name (data : Bytes) (mps : List MountPoint) (mp : MountPoint)
    (h : parseTable data = some mps) (hm : mp ∈ mps) :
    (2 ≤ mp.Raw.count ';' → (fields mp.Raw)[1]? = some mp.Name) ∧
    (mp.Raw.count ';' < 2 → mp.Name = []) := by
  have hmp := parseTable_mem data mps mp h hm
  have hn : mp.Name = getName mp.Raw := by rw [hmp]; rfl
  rw [hn]
  exact getName_spec mp.Raw

/-- The statement of C3 (amended) at a row of three fields. -/
theorem parseTable_name_witness :
    (2 ≤ (mkMountPoint "STR;Name1;x".toList).Raw.count ';' →
      (fields (mkMountPoint "STR;Name1;x".toList).Raw)[1]? =
        some (mkMountPoint "STR;Name1;x".toList).Name) ∧
    ((mkMountPoint "STR;Name1;x".toList).Raw.count ';' < 2 →
      (mkMountPoint "STR;Name1;x".toList).Name = []) :=
  parseTable_name "\r\n\r\nSTR;Name1;x\r\n".toList [mkMountPoint "STR;Name1;x".toList]
    (mkMountPoint "STR;Name1;x".toList) (by rfl) (by simp)

/-- Claim C3 as stated fails: the row `STR;Name1` has one `;` and field 1 `Name1`, and
its MountPoint has the empty Name. -/
theorem parseTable_name_cex :
    ∃ mp, parseTable "\r\n\r\nSTR;Name1\r\n".toList = some [mp] ∧
      1 ≤ mp.Raw.count ';' ∧ (fields mp.Raw)[1]? = some "Name1".toList ∧ mp.Name = [] ∧
      (fields mp.Raw)[1]? ≠ some mp.Name :=
  ⟨mkMountPoint "STR;Name1".toList, by rfl, by decide, by decide, by decide, by decide⟩

/-- Claim C4, as amended: for every field `I.F` with `I` a non-empty digit run, optionally
preceded by `-`, and `F` a non-empty digit run of at most 22 digits, both denoting numbers
that fit a 32-bit `int`, the coordinate decoder returns the `double` it gets by dividing
`nat(F)` by `10^(number of digits of F)` and adding `int(I)`, each result rounded to the
nearest `double`; this is exactly `int(I) + nat(F) / 10^(number of digits of F)` whenever
the quotient and the sum are doubles. -/
theorem parseValue_decimal (neg : Bool) (I F : Bytes)
    (hI : I ≠ []) (hId : ∀ c ∈ I, isDigit c = true)
    (hF : F ≠ []) (hFd : ∀ c ∈ F, isDigit c = true)
    (hlo : INT_MIN ≤ signedVal neg I) (hhi : signedVal neg I ≤ INT_MAX)
    (hFr : (natOfDigits F : Int) ≤ INT_MAX) (hn : F.length ≤ 22) :
    parseValue (signText neg ++ I ++ '.' :: F) =
      roundDouble (roundDouble ((natOfDigits F : ℚ) / (10 : ℚ) ^ F.length) +
        (signedVal neg I : ℚ)) ∧
    (isDouble ((natOfDigits F : ℚ) / (10 : ℚ) ^ F.length) →
      isDouble ((natOfDigits F : ℚ) / (10 : ℚ) ^ F.length + (signedVal neg I : ℚ)) →
      parseValue (signText neg ++ I ++ '.' :: F) =
        (signedVal neg I : ℚ) + (natOfDigits F : ℚ) / (10 : ℚ) ^ F.length) := by
  have hdot : ∀ c ∈ signText neg ++ I, c ≠ '.' := by
    intro c hc
    rcases List.mem_append.mp hc with hs | hi
    · cases neg <;> simp [signText] at hs
      subst hs; decide
    · exact isDigit_ne_dot c (hId c hi)
  have hv : parseValue (signText neg ++ I ++ '.' :: F) =
      roundDouble (roundDouble ((natOfDigits F : ℚ) / (10 : ℚ) ^ F.length) +
        (signedVal neg I : ℚ)) := by
    rw [parseValue_split _ _ hdot, from_chars_signed neg I 0 hI hId hlo hhi,
      from_chars_digits F 0 hF hFd hFr, fracQuotient_of_le _ _ hn]
    simp
  refine ⟨hv, fun h1 h2 => ?_⟩
  rw [hv, roundDouble_of_isDouble _ h1, roundDouble_of_isDouble _ h2, add_comm]

/-- The field `30.25` decodes to 30.25 exactly (C4 amended, at this input). -/
theorem parseValue_decimal_witness : parseValue "30.25".toList = 121 / 4 := by
  have h := (parseValue_decimal false "30".toList "25".toList (by decide) (by decide)
    (by decide) (by decide) (by decide) (by decide) (by decide) (by decide)).2
  have e : "30.25".toList = signText false ++ "30".toList ++ '.' :: "25".toList := by decide
  have h30 : signedVal false "30".toList = 30 := by decide
  have h25 : natOfDigits "25".toList = 25 := by decide
  have hl : "25".toList.length = 2 := by decide
  rw [h30, h25, hl] at h
  rw [e, h ⟨1, -2, by norm_num, by norm_num, by norm_num, by norm_num⟩
    ⟨121, -2, by norm_num, by norm_num, by norm_num, by norm_num⟩]
  norm_num

/-- Claim C4 as stated fails: the fraction of `0.9999999999` does not fit an `int`, so
`from_chars` leaves `frac` at 0 and the field decodes to 0; and the field `0.1` decodes
to a `double`, which is not the rational 1/10. -/
theorem parseValue_decimal_cex :
    parseValue (signText false ++ "0".toList ++ '.' :: "9999999999".toList) ≠
      (signedVal false "0".toList : ℚ) +
        (natOfDigits "9999999999".toList : ℚ) / (10 : ℚ) ^ "9999999999".toList.length ∧
    parseValue (signText false ++ "0".toList ++ '.' :: "1".toList) ≠
      (signedVal false "0".toList : ℚ) +
        (natOfDigits "1".toList : ℚ) / (10 : ℚ) ^ "1".toList.length := by
  have hdot : ∀ c ∈ signText false ++ "0".toList, c ≠ '.' := by decide
  constructor
  · rw [parseValue_split _ _ hdot]
    have h1 : from_chars "9999999999".toList 0 = 0 := by decide
    have h2 : from_chars (signText false ++ "0".toList) 0 = 0 := by decide
    have h3 : signedVal false "0".toList = 0 := by decide
    have h4 : natOfDigits "9999999999".toList = 9999999999 := by decide
    have h5 : "9999999999".toList.length = 10 := by decide
    rw [h1, h2, h3, h4, h5, fracQuotient_of_le _ _ (by norm_num)]
    simp only [Int.cast_zero, zero_div, roundDouble_zero, add_zero]
    norm_num
  · obtain ⟨m, e, hme⟩ := roundDouble_dyadic
      (fracQuotient (from_chars "1".toList 0) "1".toList.length +
        ((from_chars (signText false ++ "0".toList) 0 : Int) : ℚ))
    have h3 : signedVal false "0".toList = 0 := by decide
    have h4 : natOfDigits "1".toList = 1 := by decide
    have h5 : "1".toList.length = 1 := by decide
    rw [parseValue_split _ _ hdot, hme, h3, h4, h5]
    intro h
    apply tenth_not_dyadic m e
    rw [h]
    norm_num

/-- Claim C5, as amended: for every digit run `F` of at most 9 digits the field `-0.F`
decodes to the `double` nearest to `nat(F) / 10^(number of digits of F)`, a non-negative
value and the same as the field `0.F` decodes to: the sign is lost.  The value is exactly
`nat(F) / 10^(number of digits of F)` when that number is a `double`. -/
theorem parseValue_minus_zero (F : Bytes) (hFd : ∀ c ∈ F, isDigit c = true)
    (hlen : F.length ≤ 9) :
    parseValue ('-' :: '0' :: '.' :: F) =
      roundDouble ((natOfDigits F : ℚ) / (10 : ℚ) ^ F.length) ∧
    0 ≤ parseValue ('-' :: '0' :: '.' :: F) ∧
    parseValue ('-' :: '0' :: '.' :: F) = parseValue ('0' :: '.' :: F) ∧
    (isDouble ((natOfDigits F : ℚ) / (10 : ℚ) ^ F.length) →
      parseValue ('-' :: '0' :: '.' :: F) = (natOfDigits F : ℚ) / (10 : ℚ) ^ F.length) := by
  have hlt := natOfDigits_lt F hFd
  have hpow : 10 ^ F.length ≤ 10 ^ 9 := Nat.pow_le_pow_right (by omega) hlen
  have hr : (natOfDigits F : Int) ≤ INT_MAX := by
    unfold INT_MAX; omega
  have hq0 : (0 : ℚ) ≤ (natOfDigits F : ℚ) / (10 : ℚ) ^ F.length := by positivity
  have hq1 := digit_quotient_lt_one F hFd
  have hsmall : |(natOfDigits F : ℚ) / (10 : ℚ) ^ F.length| < (2 : ℚ) ^ (1023 : ℤ) := by
    rw [abs_of_nonneg hq0]
    calc (natOfDigits F : ℚ) / (10 : ℚ) ^ F.length < 1 := hq1
      _ ≤ (2 : ℚ) ^ (1023 : ℤ) := one_le_zpow₀ (by norm_num) (by norm_num)
  have hval : ∀ I : Bytes, (∀ c ∈ I, c ≠ '.') → from_chars I 0 = 0 →
      parseValue (I ++ '.' :: F) =
        roundDouble ((natOfDigits F : ℚ) / (10 : ℚ) ^ F.length) := by
    intro I hI h0
    rw [parseValue_split I F hI, h0, from_chars_digits_zero F hFd hr,
      fracQuotient_of_le _ _ (by omega)]
    simp only [Int.cast_zero, add_zero, Int.cast_natCast]
    exact roundDouble_idem _ hsmall
  have hneg := hval ['-', '0'] (by decide) (by decide)
  have hpos := hval ['0'] (by decide) (by decide)
  simp only [List.cons_append, List.nil_append] at hneg hpos
  refine ⟨hneg, ?_, hneg.trans hpos.symm, fun hd => ?_⟩
  · rw [hneg]
    exact roundDouble_nonneg _ hq0
  · rw [hneg, roundDouble_of_isDouble _ hd]

/-- The field `-0.5` decodes to `1/2` (C5 amended, at `F = 5`). -/
theorem parseValue_minus_zero_witness :
    parseValue "-0.5".toList = 1 / 2 ∧ 0 ≤ parseValue "-0.5".toList := by
  obtain ⟨_, h0, _, hex⟩ := parseValue_minus_zero ['5'] (by decide) (by decide)
  have h5 : natOfDigits ['5'] = 5 := by decide
  rw [h5] at hex
  refine ⟨?_, h0⟩
  rw [show "-0.5".toList = '-' :: '0' :: '.' :: ['5'] from rfl,
    hex ⟨1, -1, by norm_num, by norm_num, by norm_num, by norm_num⟩]
  norm_num

/-- Claim C5 as stated fails: the field `-0.1` decodes to the `double`
`7205759403792794 / 2^56` (in hexadecimal `0x1.999999999999ap-4`), which is not the
rational `1/10`. -/
theorem parseValue_minus_zero_cex :
    parseValue ('-' :: '0' :: '.' :: ['1']) = 7205759403792794 / 2 ^ 56 ∧
    parseValue ('-' :: '0' :: '.' :: ['1']) ≠
      (natOfDigits ['1'] : ℚ) / (10 : ℚ) ^ ['1'].length := by
  have hdot : ∀ c ∈ ['-', '0'], c ≠ '.' := by decide
  have hs := parseValue_split ['-', '0'] ['1'] hdot
  simp only [List.cons_append, List.nil_append] at hs
  have hf : from_chars ['1'] 0 = 1 := by decide
  have hi : from_chars ['-', '0'] 0 = 0 := by decide
  have hl : ['1'].length = 1 := rfl
  have hv : parseValue ('-' :: '0' :: '.' :: ['1']) = 7205759403792794 / 2 ^ 56 := by
    rw [hs, hf, hi, hl, fracQuotient_of_le _ _ (by norm_num)]
    have e : ((1 : Int) : ℚ) / (10 : ℚ) ^ 1 = 1 / 10 := by norm_num
    rw [e]
    simp only [Int.cast_zero, add_zero]
    rw [roundDouble_idem _ (by norm_num [abs_of_pos]), roundDouble_tenth]
  have h4 : natOfDigits ['1'] = 1 := by decide
  refine ⟨hv, ?_⟩
  rw [hv, h4, hl]
  norm_num

/-- Claim C6: `hasTableEnding data` is true if and only if `data` ends with the byte
string `"ENDSOURCETABLE\r\n"`. -/
theorem hasTableEnding_iff_suffix (data : Bytes) :
    hasTableEnding data = true ↔ "ENDSOURCETABLE\r\n".toList <:+ data := by
  rw [hasTableEnding_eq_endsWith, endsWith_iff]
  rfl

/-- Claim C7, as amended: `hasTableEnding data` is true if and only if `data` has at
least 16 bytes and its last 16 bytes equal `"ENDSOURCETABLE\r\n"`; it is false for
every input shorter than 16 bytes. -/
theorem hasTableEnding_last16 (data : Bytes) :
    (hasTableEnding data = true ↔
      16 ≤ data.length ∧ lastBytes 16 data = "ENDSOURCETABLE\r\n".toList) ∧
    (data.length < 16 → hasTableEnding data = false) := by
  have hl : tableEnding.length = 16 := by decide
  have key : hasTableEnding data = true ↔
      16 ≤ data.length ∧ lastBytes 16 data = "ENDSOURCETABLE\r\n".toList := by
    rw [hasTableEnding_eq_endsWith, endsWith_iff, List.suffix_iff_eq_drop, hl]
    unfold lastBytes
    constructor
    · intro h
      have hlen := congrArg List.length h
      rw [hl, List.length_drop] at hlen
      exact ⟨by omega, h.symm⟩
    · intro h
      exact h.2.symm
  refine ⟨key, fun h => ?_⟩
  cases hb : hasTableEnding data with
  | false => rfl
  | true => have := (key.mp hb).1; omega

/-- The statement of C7 (amended) at a 3-byte input. -/
theorem hasTableEnding_last16_witness :
    (hasTableEnding "abc".toList = true ↔
      16 ≤ "abc".toList.length ∧ lastBytes 16 "abc".toList = "ENDSOURCETABLE\r\n".toList) ∧
    ("abc".toList.length < 16 → hasTableEnding "abc".toList = false) :=
  hasTableEnding_last16 "abc".toList

/-- Claim C7 as stated fails: the 16-byte input `"ENDSOURCETABLE\r\n"` is shorter than 17
bytes and is accepted, and the 17-byte input `"XENDSOURCETABLE\r\n"` is accepted
although its last 17 bytes are not the terminator. -/
theorem hasTableEnding_last17_cex :
    ("ENDSOURCETABLE\r\n".toList.length < 17 ∧
      hasTableEnding "ENDSOURCETABLE\r\n".toList = true) ∧
    (hasTableEnding "XENDSOURCETABLE\r\n".toList = true ∧
      lastBytes 17 "XENDSOURCETABLE\r\n".toList ≠ "ENDSOURCETABLE\r\n".toList) := by
  decide

/-- Where the wait loop of `connect` stops when no poll fails: at the first poll after
which the text ends with the terminator, or when its iterations are used up. -/
theorem connectWait_stops (n : Nat) (script : List Poll) (buf : Bytes) (polls : Nat)
    (h : ∀ p ∈ script, p ≠ Poll.failure) (hbuf : ¬ ['\r', '\n', '\r', '\n'] <:+ buf) :
    ∃ k, k ≤ n ∧
      (∀ j, j < k → ¬ ['\r', '\n', '\r', '\n'] <:+ buf ++ received script j) ∧
      (k = n ∨ ['\r', '\n', '\r', '\n'] <:+ buf ++ received script k) ∧
      connectWait n script buf polls =
        { failed := false, text := buf ++ received script k, polls := polls + k,
          rest := script.drop k } := by
  induction n generalizing script buf polls with
  | zero =>
    exact ⟨0, le_refl _, fun j hj => absurd hj (Nat.not_lt_zero j), Or.inl rfl,
      by simp [connectWait, received_zero]⟩
  | succ n ih =>
    cases script with
    | nil =>
      obtain ⟨k, hk, hbefore, hstop, he⟩ := ih [] buf (polls + 1) (by simp) hbuf
      refine ⟨k + 1, by omega, ?_, ?_, ?_⟩
      · intro j _
        simpa [received_nil] using hbuf
      · rcases hstop with hn | ht
        · exact Or.inl (by omega)
        · exact absurd (by simpa [received_nil] using ht) hbuf
      · simp only [connectWait, nextPoll, Poll.avail, List.head?_nil, Option.getD_none,
          List.length_nil, List.tail_nil]
        simp only [Nat.cast_zero, lt_self_iff_false, if_false]
        rw [he]
        simp [received_nil]; omega
    | cons p rest =>
      have hp : p ≠ Poll.failure := h p (by simp)
      have hrest : ∀ q ∈ rest, q ≠ Poll.failure := fun q hq => h q (by simp [hq])
      cases p with
      | failure => exact absurd rfl hp
      | data chunk =>
        have hneg : ¬ ((chunk.length : Int) < 0) := by omega
        by_cases hc : (chunk.length : Int) > 0
        · by_cases he : endsWith (buf ++ chunk) ['\r', '\n', '\r', '\n'] = true
          · refine ⟨1, by omega, ?_, Or.inr ?_, ?_⟩
            · intro j hj
              have hj0 : j = 0 := by omega
              subst hj0
              simpa [received_zero] using hbuf
            · simpa [received, Poll.chunk] using (endsWith_iff _ _).mp he
            · simp only [connectWait, nextPoll, Poll.avail, Poll.chunk, List.head?_cons,
                Option.getD_some, List.tail_cons]
              rw [if_neg hneg, if_pos hc, if_pos he]
              simp [received, Poll.chunk]
          · have hb1 : ¬ ['\r', '\n', '\r', '\n'] <:+ buf ++ chunk := by
              rw [← endsWith_iff]; exact he
            obtain ⟨k, hk, hbefore, hstop, hw⟩ := ih rest (buf ++ chunk) (polls + 1) hrest hb1
            refine ⟨k + 1, by omega, ?_, ?_, ?_⟩
            · intro j hj
              cases j with
              | zero => simpa [received_zero] using hbuf
              | succ j =>
                simpa [received_cons, Poll.chunk] using hbefore j (by omega)
            · rcases hstop with hn | ht
              · exact Or.inl (by omega)
              · exact Or.inr (by simpa [received_cons, Poll.chunk] using ht)
            · simp only [connectWait, nextPoll, Poll.avail, Poll.chunk, List.head?_cons,
                Option.getD_some, List.tail_cons]
              rw [if_neg hneg, if_pos hc, if_neg he, hw, received_cons]
              simp [Poll.chunk]; omega
        · have hnil : chunk = [] := by
            cases chunk with
            | nil => rfl
            | cons c cs => simp at hc
          subst hnil
          obtain ⟨k, hk, hbefore, hstop, hw⟩ := ih rest buf (polls + 1) hrest hbuf
          refine ⟨k + 1, by omega, ?_, ?_, ?_⟩
          · intro j hj
            cases j with
            | zero => simpa [received_zero] using hbuf
            | succ j =>
              simpa [received_cons, Poll.chunk] using hbefore j (by omega)
          · rcases hstop with hn | ht
            · exact Or.inl (by omega)
            · exact Or.inr (by simpa [received_cons, Poll.chunk] using ht)
          · simp only [connectWait, nextPoll, Poll.avail, Poll.chunk, List.head?_cons,
              Option.getD_some, List.tail_cons, List.length_nil]
            simp only [Nat.cast_zero, lt_self_iff_false, if_false]
            rw [hw, received_cons]
            simp [Poll.chunk]; omega

/-- Claim C8: when no session is active, the TCP connect and the request write succeed
and no poll reports a negative byte count, `connect` returns; it has polled until the
first poll after which the accumulated response ends with `"\r\n\r\n"`, or 49 times when
there is none; the response buffer is what these polls delivered, and `connect`
classifies it by its beginning: authfailure if it starts with
`"HTTP/1.1 401 Unauthorized\r\n"`, ok if it starts with `"ICY 200 OK\r\n"`, error for
every other content. -/
theorem connect_classifies (encode : Bytes → Bytes → Bytes) (self : NtripClient)
    (nlogin : ntrip_login) (net : Net)
    (hfree : self.m_tcp = false)
    (hcon : net.connectResult = io_status.Success)
    (hwr : net.writeResult = io_status.Success)
    (hpoll : ∀ p ∈ net.script, p ≠ Poll.failure) :
    ∃ out, connect encode self nlogin net = Call.returned out ∧
      out.polls ≤ 49 ∧
      (∀ j, j < out.polls → ¬ "\r\n\r\n".toList <:+ received net.script j) ∧
      (out.polls = 49 ∨ "\r\n\r\n".toList <:+ received net.script out.polls) ∧
      out.responseText = received net.script out.polls ∧
      out.rest = net.script.drop out.polls ∧
      ("HTTP/1.1 401 Unauthorized\r\n".toList <+: out.responseText →
        out.result = status.authfailure) ∧
      ("ICY 200 OK\r\n".toList <+: out.responseText → out.result = status.ok) ∧
      (¬ "HTTP/1.1 401 Unauthorized\r\n".toList <+: out.responseText →
        ¬ "ICY 200 OK\r\n".toList <+: out.responseText → out.result = status.error) := by
  obtain ⟨k, hk, hbefore, hstop, hw⟩ := connectWait_stops (50 - 1) net.script [] 0 hpoll
    (by decide)
  simp only [connect, hfree, hcon, hwr, hw, Bool.false_eq_true, if_false, ne_eq,
    not_true_eq_false]
  refine ⟨_, rfl, ?_, ?_, ?_, ?_, ?_, ?_⟩
  · simpa using hk
  · intro j hj
    simpa using hbefore j (by simpa using hj)
  · rcases hstop with hn | ht
    · exact Or.inl (by simpa using hn)
    · exact Or.inr (by simpa using ht)
  · simp
  · simp
  · simpa using classify_cases ([] ++ received net.script k)

/-- The statement of C8 at a caster that answers `"ICY 200 OK\r\n\r\n"` on the first poll:
`connect` stops after that poll and returns ok. -/
theorem connect_classifies_witness :
    ∃ out, connect (fun _ _ => []) { m_tcp := false, m_aio := false }
        { mountpoint := "CMR".toList, username := [], password := [] }
        { connectResult := io_status.Success, writeResult := io_status.Success,
          script := [Poll.data "ICY 200 OK\r\n\r\n".toList] } = Call.returned out ∧
      out.polls = 1 ∧ out.responseText = "ICY 200 OK\r\n\r\n".toList ∧ out.rest = [] ∧
      out.result = status.ok := by
  obtain ⟨out, ho, _, hbefore, hstop, htext, hrest, _, hok, _⟩ :=
    connect_classifies (fun _ _ => []) { m_tcp := false, m_aio := false }
      { mountpoint := "CMR".toList, username := [], password := [] }
      { connectResult := io_status.Success, writeResult := io_status.Success,
        script := [Poll.data "ICY 200 OK\r\n\r\n".toList] } rfl rfl rfl (by decide)
  have hone : received [Poll.data "ICY 200 OK\r\n\r\n".toList] 1 =
      "ICY 200 OK\r\n\r\n".toList := by decide
  have hle : out.polls ≤ 1 := by
    by_contra hgt
    exact hbefore 1 (by omega) (by rw [hone]; decide)
  have hne : out.polls ≠ 0 := by
    intro h0
    rcases hstop with h49 | ht
    · omega
    · rw [h0] at ht
      revert ht
      decide
  have h1 : out.polls = 1 := by omega
  simp only [h1] at htext hrest
  rw [hone] at htext
  refine ⟨out, ho, h1, htext, by simpa using hrest, hok ?_⟩
  rw [htext]
  decide

/-- Claim C9, as amended: when the accumulated response never ends with `"\r\n\r\n"`
within the 49 polls of the handshake, `connect` returns error if one of these polls
reports a negative count; otherwise it makes all 49 polls and classifies what they
delivered by its beginning, returning error exactly when the text starts with neither
`"HTTP/1.1 401 Unauthorized\r\n"` (authfailure) nor `"ICY 200 OK\r\n"` (ok). -/
theorem connect_unterminated (encode : Bytes → Bytes → Bytes) (self : NtripClient)
    (nlogin : ntrip_login) (net : Net)
    (hfree : self.m_tcp = false)
    (hcon : net.connectResult = io_status.Success)
    (hwr : net.writeResult = io_status.Success)
    (hnt : ∀ k, 1 ≤ k → k ≤ 49 → ¬ ['\r', '\n', '\r', '\n'] <:+ received net.script k) :
    ∃ out, connect encode self nlogin net = Call.returned out ∧
      (Poll.failure ∈ net.script.take 49 → out.result = status.error) ∧
      (Poll.failure ∉ net.script.take 49 →
        out.polls = 49 ∧ out.responseText = received net.script 49 ∧
        ("HTTP/1.1 401 Unauthorized\r\n".toList <+: out.responseText →
          out.result = status.authfailure) ∧
        ("ICY 200 OK\r\n".toList <+: out.responseText → out.result = status.ok) ∧
        (¬ "HTTP/1.1 401 Unauthorized\r\n".toList <+: out.responseText →
          ¬ "ICY 200 OK\r\n".toList <+: out.responseText → out.result = status.error)) := by
  obtain ⟨h1, h2⟩ := connectWait_unterminated (50 - 1) net.script [] 0
    (fun k hk1 hk2 => by simpa using hnt k hk1 hk2)
  simp only [connect, hfree, hcon, hwr, Bool.false_eq_true, if_false, ne_eq, not_true_eq_false]
  refine ⟨_, rfl, fun hf => ?_, fun hf => ?_⟩
  · simp only [h2 hf, if_true]
  · rw [h1 hf]
    refine ⟨by simp, by simp, ?_⟩
    simpa using classify_cases ([] ++ received net.script 49)

/-- A response `"SOURCETABLE 200 OK\r\n"` without terminator is classified as error (C9
amended, at this input). -/
theorem connect_unterminated_witness :
    ∃ out, connect (fun _ _ => []) { m_tcp := false, m_aio := false }
        { mountpoint := "CMR".toList, username := [], password := [] }
        { connectResult := io_status.Success, writeResult := io_status.Success,
          script := [Poll.data "SOURCETABLE 200 OK\r\n".toList] } = Call.returned out ∧
      out.result = status.error := by
  obtain ⟨out, ho, _, h2⟩ := connect_unterminated (fun _ _ => [])
    { m_tcp := false, m_aio := false }
    { mountpoint := "CMR".toList, username := [], password := [] }
    { connectResult := io_status.Success, writeResult := io_status.Success,
      script := [Poll.data "SOURCETABLE 200 OK\r\n".toList] } rfl rfl rfl
    (by
      intro k hk1 hk2
      have : received [Poll.data "SOURCETABLE 200 OK\r\n".toList] k =
          "SOURCETABLE 200 OK\r\n".toList := by
        cases k with
        | zero => omega
        | succ k => simp [received, Poll.chunk]
      rw [this]
      decide)
  obtain ⟨_, hr, _, _, h3⟩ := h2 (by decide)
  refine ⟨out, ho, h3 ?_ ?_⟩
  · rw [hr]; decide
  · rw [hr]; decide

/-- Claim C9 as stated fails: the response `"ICY 200 OK\r\n"` never ends with
`"\r\n\r\n"`, and `connect` returns ok. -/
theorem connect_unterminated_cex :
    (∀ k, 1 ≤ k → k ≤ 49 →
      ¬ ['\r', '\n', '\r', '\n'] <:+ received [Poll.data "ICY 200 OK\r\n".toList] k) ∧
    ∃ out, connect (fun _ _ => []) { m_tcp := false, m_aio := false }
        { mountpoint := "CMR".toList, username := [], password := [] }
        { connectResult := io_status.Success, writeResult := io_status.Success,
          script := [Poll.data "ICY 200 OK\r\n".toList] } = Call.returned out ∧
      out.result = status.ok := by
  constructor
  · intro k hk1 hk2
    have : received [Poll.data "ICY 200 OK\r\n".toList] k = "ICY 200 OK\r\n".toList := by
      cases k with
      | zero => omega
      | succ k => simp [received, Poll.chunk]
    rw [this]
    decide
  · exact ⟨_, rfl, by decide⟩

/-- Claim C10, evaluated on the code: when no bytes ever arrive and no poll reports an
error, the response wait of `getMountPoints` makes 50 polls of `Available()`, and the
response wait of `connect` makes 49. -/
theorem silent_wait_polls (encode : Bytes → Bytes → Bytes) (self : NtripClient)
    (nlogin : ntrip_login) (net : Net) (name password : Bytes)
    (hfree : self.m_tcp = false)
    (hcon : net.connectResult = io_status.Success)
    (hwr : net.writeResult = io_status.Success)
    (hsilent : ∀ p ∈ net.script, p = Poll.data []) :
    (∃ out, connect encode self nlogin net = Call.returned out ∧ out.polls = 49) ∧
    (getMountPoints encode net name password).polls = 50 := by
  constructor
  · simp only [connect, hfree, hcon, hwr, Bool.false_eq_true, if_false, ne_eq,
      not_true_eq_false]
    exact ⟨_, rfl, by simpa using connectWait_silent (50 - 1) net.script [] 0 hsilent⟩
  · obtain ⟨h1, h2⟩ := tableWait_silent 50 net.script [] 0 hsilent
    simp only [getMountPoints, hcon, hwr, ne_eq, not_true_eq_false, if_false, h2,
      Bool.false_eq_true]
    split <;> simpa using h1

/-- The poll counts of C10 at a caster that never answers. -/
theorem silent_wait_polls_witness :
    (∃ out, connect (fun _ _ => []) { m_tcp := false, m_aio := false }
        { mountpoint := "CMR".toList, username := [], password := [] }
        { connectResult := io_status.Success, writeResult := io_status.Success,
          script := [] } = Call.returned out ∧ out.polls = 49) ∧
    (getMountPoints (fun _ _ => [])
        { connectResult := io_status.Success, writeResult := io_status.Success,
          script := [] } [] []).polls = 50 :=
  silent_wait_polls (fun _ _ => []) { m_tcp := false, m_aio := false }
    { mountpoint := "CMR".toList, username := [], password := [] }
    { connectResult := io_status.Success, writeResult := io_status.Success, script := [] }
    [] [] rfl rfl rfl (by simp)

/-! ## The request, discovery and the steady-state loop -/

/-- The text `sprintf` writes, with the constant parts of the format joined. -/
theorem build_request_shape (encode : Bytes → Bytes → Bytes) (mountpoint name password : Bytes) :
    build_request encode mountpoint name password =
      "GET /".toList ++ (c_str mountpoint ++
        (" HTTP/1.0\r\nUser-Agent: NTRIP PvvovanNTRIPClient/1.0.0\r\nAccept: */*\r\nConnection: close\r\nAuthorization: Basic ".toList ++
          (c_str (if name = [] then [] else encode name password) ++ "\r\n\r\n".toList))) := by
  unfold build_request
  have hlen : (name.length > 0) = (name ≠ []) := by
    cases name <;> simp
  by_cases hn : name = []
  · subst hn
    simp [c_str]
  · have hp : name.length > 0 := by rw [hlen]; exact hn
    simp [hn, hp]

/-- Claim C11, as amended: for every mount point path, user name and password the request
built by `build_request` ends with an Authorization header line followed by the empty
line: `Authorization: Basic <encode(user, pass)>` when the user name is non-empty, and
`Authorization: Basic ` with empty credentials when the user name is empty. -/
theorem build_request_authorization (encode : Bytes → Bytes → Bytes)
    (mountpoint name password : Bytes) :
    (name ≠ [] →
      "\r\nAuthorization: Basic ".toList ++ c_str (encode name password) ++ "\r\n\r\n".toList
        <:+ build_request encode mountpoint name password) ∧
    (name = [] →
      "\r\nAuthorization: Basic \r\n\r\n".toList <:+ build_request encode mountpoint name password) := by
  rw [build_request_shape]
  constructor
  · intro hn
    refine ⟨"GET /".toList ++ (c_str mountpoint ++ " HTTP/1.0\r\nUser-Agent: NTRIP PvvovanNTRIPClient/1.0.0\r\nAccept: */*\r\nConnection: close".toList), ?_⟩
    simp [hn]
  · intro hn
    refine ⟨"GET /".toList ++ (c_str mountpoint ++ " HTTP/1.0\r\nUser-Agent: NTRIP PvvovanNTRIPClient/1.0.0\r\nAccept: */*\r\nConnection: close".toList), ?_⟩
    simp [hn, c_str]

/-- The statement of C11 (amended) for the user `u` with password `p`. -/
theorem build_request_authorization_witness :
    "\r\nAuthorization: Basic ".toList ++ c_str ((fun _ _ => "dTpw".toList) "u".toList "p".toList) ++ "\r\n\r\n".toList
        <:+ build_request (fun _ _ => "dTpw".toList) "CMR".toList "u".toList "p".toList :=
  (build_request_authorization (fun _ _ => "dTpw".toList) "CMR".toList "u".toList "p".toList).1
    (by decide)

/-- Claim C11 as stated fails: with an empty user name the request still contains the
header line `Authorization: Basic `. -/
theorem build_request_authorization_cex :
    "\r\nAuthorization: Basic \r\n".toList <:+:
      build_request (fun _ _ => "dTpw".toList) "CMR".toList [] "p".toList :=
  ⟨"GET /CMR HTTP/1.0\r\nUser-Agent: NTRIP PvvovanNTRIPClient/1.0.0\r\nAccept: */*\r\nConnection: close".toList,
    "\r\n".toList, by rfl⟩

/-- An occurrence of `w` in `u ++ v` lies in `u`, lies in `v`, or straddles the seam. -/
theorem infix_append_cases (w u v : Bytes) (h : w <:+: u ++ v) :
    w <:+: u ∨ w <:+: v ∨
      ∃ k, 0 < k ∧ k < w.length ∧ w.take k <:+ u ∧ w.drop k <+: v := by
  obtain ⟨s, t, hst⟩ := h
  rcases List.append_eq_append_iff.mp hst with ⟨a, hu, ht⟩ | ⟨c, hsw, hv⟩
  · exact Or.inl ⟨s, a, hu.symm⟩
  · rcases List.append_eq_append_iff.mp hsw with ⟨a, hu, hw⟩ | ⟨d, hs, hc⟩
    · by_cases ha : a = []
      · subst ha
        simp at hw
        subst hw
        exact Or.inr (Or.inl ⟨[], t, by simpa using hv.symm⟩)
      · by_cases hc : c = []
        · subst hc
          simp at hw
          subst hw
          exact Or.inl ⟨s, [], by simpa using hu.symm⟩
        · refine Or.inr (Or.inr ⟨a.length, List.length_pos.mpr ha, ?_, ?_, ?_⟩)
          · rw [hw, List.length_append]
            have := List.length_pos.mpr hc
            omega
          · rw [hw, List.take_left']
            · exact ⟨s, hu.symm⟩
            · rfl
          · rw [hw, List.drop_left']
            · exact ⟨t, hv.symm⟩
            · rfl
    · refine Or.inr (Or.inl ⟨d, t, ?_⟩)
      rw [hv, hc]

theorem no_header_end_append (u v : Bytes) (hu : ¬ ['\r', '\n'] <:+: u)
    (hv : ¬ ['\r', '\n', '\r', '\n'] <:+: v) (hv1 : ¬ ['\n', '\r', '\n'] <+: v) :
    ¬ ['\r', '\n', '\r', '\n'] <:+: u ++ v := by
  intro h
  rcases infix_append_cases _ _ _ h with h1 | h2 | ⟨k, hk0, hk4, hsuf, hpre⟩
  · exact hu (List.IsInfix.trans ⟨[], ['\r', '\n'], rfl⟩ h1)
  · exact hv h2
  · simp only [List.length_cons, List.length_nil] at hk4
    have hk : k = 1 ∨ k = 2 ∨ k = 3 := by omega
    rcases hk with rfl | rfl | rfl
    · exact hv1 hpre
    · exact hu hsuf.isInfix
    · exact hu (List.IsInfix.trans ⟨[], ['\r'], rfl⟩ hsuf.isInfix)

theorem c_str_of_no_nul (s : Bytes) (h : '\x00' ∉ s) : c_str s = s := by
  unfold c_str
  rw [List.takeWhile_eq_self_iff]
  intro c hc
  simp only [ne_eq, decide_eq_true_eq]
  rintro rfl
  exact h hc

theorem c_str_initial (s : Bytes) : c_str s <+: s := by
  unfold c_str
  exact List.takeWhile_prefix _

theorem no_header_end_const (w v : Bytes) (hw : ¬ ['\r', '\n', '\r', '\n'] <:+: w)
    (h1 : ¬ ['\r'] <:+ w) (h2 : ¬ ['\r', '\n'] <:+ w) (h3 : ¬ ['\r', '\n', '\r'] <:+ w)
    (hv : ¬ ['\r', '\n', '\r', '\n'] <:+: v) :
    ¬ ['\r', '\n', '\r', '\n'] <:+: w ++ v := by
  intro h
  rcases infix_append_cases _ _ _ h with h1 | h2 | ⟨k, hk0, hk4, hsuf, hpre⟩
  · exact hw h1
  · exact hv h2
  · simp only [List.length_cons, List.length_nil] at hk4
    have hk : k = 1 ∨ k = 2 ∨ k = 3 := by omega
    rcases hk with rfl | rfl | rfl
    · exact h1 hsuf
    · exact h2 hsuf
    · exact h3 hsuf

set_option maxRecDepth 100000 in
theorem request_headers_no_end :
    ¬ ['\r', '\n', '\r', '\n'] <:+:
      " HTTP/1.0\r\nUser-Agent: NTRIP PvvovanNTRIPClient/1.0.0\r\nAccept: */*\r\nConnection: close\r\nAuthorization: Basic ".toList := by
  decide

/-- Claim C12: for every mount point path `m` without NUL bytes and every credentials, the
request built by `build_request` starts with the request line `GET /m HTTP/1.0\r\n`,
contains the header line `Connection: close\r\n`, and ends with `\r\n\r\n`, which
occurs nowhere earlier in the request (not in the request without its last byte) when
`m` and the encoded credentials contain no `\r\n`. -/
theorem build_request_frame (encode : Bytes → Bytes → Bytes) (m name password : Bytes)
    (hnul : '\x00' ∉ m) :
    "GET /".toList ++ m ++ " HTTP/1.0\r\n".toList <+: build_request encode m name password ∧
    "\r\nConnection: close\r\n".toList <:+: build_request encode m name password ∧
    "\r\n\r\n".toList <:+ build_request encode m name password ∧
    (¬ "\r\n".toList <:+: m → (name ≠ [] → ¬ "\r\n".toList <:+: encode name password) →
      ¬ "\r\n\r\n".toList <:+: (build_request encode m name password).dropLast) := by
  rw [build_request_shape, c_str_of_no_nul m hnul]
  refine ⟨?_, ?_, ?_, ?_⟩
  · refine ⟨"User-Agent: NTRIP PvvovanNTRIPClient/1.0.0\r\nAccept: */*\r\nConnection: close\r\nAuthorization: Basic ".toList ++
      (c_str (if name = [] then [] else encode name password) ++ "\r\n\r\n".toList), ?_⟩
    simp
  · refine ⟨"GET /".toList ++ (m ++ " HTTP/1.0\r\nUser-Agent: NTRIP PvvovanNTRIPClient/1.0.0\r\nAccept: */*".toList),
      "Authorization: Basic ".toList ++
        (c_str (if name = [] then [] else encode name password) ++ "\r\n\r\n".toList), ?_⟩
    simp
  · refine ⟨"GET /".toList ++ (m ++
      (" HTTP/1.0\r\nUser-Agent: NTRIP PvvovanNTRIPClient/1.0.0\r\nAccept: */*\r\nConnection: close\r\nAuthorization: Basic ".toList ++
        c_str (if name = [] then [] else encode name password))), ?_⟩
    simp
  · intro hm henc
    have hauth : ¬ ['\r', '\n'] <:+: c_str (if name = [] then [] else encode name password) := by
      intro h
      by_cases hn : name = []
      · simp [hn, c_str] at h
      · rw [if_neg hn] at h
        exact henc hn (h.trans (c_str_initial _).isInfix)
    have hdrop : ("GET /".toList ++ (m ++
        (" HTTP/1.0\r\nUser-Agent: NTRIP PvvovanNTRIPClient/1.0.0\r\nAccept: */*\r\nConnection: close\r\nAuthorization: Basic ".toList ++
          (c_str (if name = [] then [] else encode name password) ++ "\r\n\r\n".toList)))).dropLast =
        "GET /".toList ++ (m ++
        (" HTTP/1.0\r\nUser-Agent: NTRIP PvvovanNTRIPClient/1.0.0\r\nAccept: */*\r\nConnection: close\r\nAuthorization: Basic ".toList ++
          (c_str (if name = [] then [] else encode name password) ++ ['\r', '\n', '\r']))) := by
      have e : "\r\n\r\n".toList = ['\r', '\n', '\r'] ++ ['\n'] := rfl
      rw [e]
      simp only [← List.append_assoc]
      rw [List.dropLast_concat]
    rw [hdrop]
    have s1 := no_header_end_append _ ['\r', '\n', '\r'] hauth (by decide) (by decide)
    have s2 := no_header_end_const
      " HTTP/1.0\r\nUser-Agent: NTRIP PvvovanNTRIPClient/1.0.0\r\nAccept: */*\r\nConnection: close\r\nAuthorization: Basic ".toList
      _ request_headers_no_end (by decide) (by decide) (by decide) s1
    have s3 := no_header_end_append m _ hm s2 (by
      rintro ⟨t, ht⟩
      simp at ht)
    exact no_header_end_const "GET /".toList _ (by decide) (by decide) (by decide) (by decide) s3

/-- The statement of C12 for the mount point `CMR`. -/
theorem build_request_frame_witness :
    "GET /".toList ++ "CMR".toList ++ " HTTP/1.0\r\n".toList <+:
      build_request (fun _ _ => "dTpw".toList) "CMR".toList "u".toList "p".toList ∧
    "\r\nConnection: close\r\n".toList <:+:
      build_request (fun _ _ => "dTpw".toList) "CMR".toList "u".toList "p".toList ∧
    "\r\n\r\n".toList <:+
      build_request (fun _ _ => "dTpw".toList) "CMR".toList "u".toList "p".toList ∧
    ¬ "\r\n\r\n".toList <:+:
      (build_request (fun _ _ => "dTpw".toList) "CMR".toList "u".toList "p".toList).dropLast := by
  obtain ⟨h1, h2, h3, h4⟩ := build_request_frame (fun _ _ => "dTpw".toList) "CMR".toList
    "u".toList "p".toList (by decide)
  exact ⟨h1, h2, h3, h4 (by decide) (fun _ => by decide)⟩

/-- Claim C13, evaluated on the code: every call of `connect` on an engine without session
whose TCP connect succeeds returns with `m_tcp` still set, whatever status it returns,
and every later `connect` on that engine throws. -/
theorem connect_keeps_m_tcp (encode : Bytes → Bytes → Bytes) (self : NtripClient)
    (nlogin : ntrip_login) (net : Net)
    (hfree : self.m_tcp = false) (hcon : net.connectResult = io_status.Success) :
    ∃ out, connect encode self nlogin net = Call.returned out ∧ out.client.m_tcp = true ∧
      ∀ nlogin1 net1, connect encode out.client nlogin1 net1 =
        Call.thrown Fatal.tcp_connection_already_created := by
  have hthrow : ∀ (c : NtripClient) nlogin1 net1, c.m_tcp = true →
      connect encode c nlogin1 net1 = Call.thrown Fatal.tcp_connection_already_created := by
    intro c nlogin1 net1 hc
    simp [connect, hc]
  by_cases hwr : net.writeResult = io_status.Success
  · simp only [connect, hfree, hcon, hwr, Bool.false_eq_true, if_false, ne_eq, not_true_eq_false]
    exact ⟨_, rfl, rfl, fun nlogin1 net1 => hthrow _ nlogin1 net1 rfl⟩
  · simp only [connect, hfree, hcon, hwr, Bool.false_eq_true, if_false, ne_eq, not_true_eq_false,
      not_false_eq_true, if_true]
    exact ⟨_, rfl, rfl, fun nlogin1 net1 => hthrow _ nlogin1 net1 rfl⟩

/-- After a `connect` that returned authfailure the next `connect` on the engine throws
(C13 at this input). -/
theorem connect_keeps_m_tcp_witness :
    ∃ out, connect (fun _ _ => "dTpw".toList) { m_tcp := false, m_aio := false }
        { mountpoint := "CMR".toList, username := "u".toList, password := "p".toList }
        { connectResult := io_status.Success, writeResult := io_status.Success,
          script := [Poll.data "HTTP/1.1 401 Unauthorized\r\n\r\n".toList] } = Call.returned out ∧
      out.result = status.authfailure ∧
      connect (fun _ _ => "dTpw".toList) out.client
        { mountpoint := "CMR".toList, username := "u".toList, password := "p".toList }
        { connectResult := io_status.Success, writeResult := io_status.Success,
          script := [Poll.data "ICY 200 OK\r\n\r\n".toList] } =
        Call.thrown Fatal.tcp_connection_already_created := by
  obtain ⟨out, ho, _, hnext⟩ := connect_keeps_m_tcp (fun _ _ => "dTpw".toList)
    { m_tcp := false, m_aio := false }
    { mountpoint := "CMR".toList, username := "u".toList, password := "p".toList }
    { connectResult := io_status.Success, writeResult := io_status.Success,
      script := [Poll.data "HTTP/1.1 401 Unauthorized\r\n\r\n".toList] } rfl rfl
  refine ⟨out, ho, ?_, hnext _ _⟩
  have hv : (match connect (fun _ _ => "dTpw".toList) { m_tcp := false, m_aio := false }
      { mountpoint := "CMR".toList, username := "u".toList, password := "p".toList }
      { connectResult := io_status.Success, writeResult := io_status.Success,
        script := [Poll.data "HTTP/1.1 401 Unauthorized\r\n\r\n".toList] } with
      | Call.returned o => o.result
      | Call.thrown _ => status.error) = status.authfailure := by
    decide
  rw [ho] at hv
  exact hv

theorem findAux_dot_none (t : Bytes) (h : ∀ c ∈ t, c ≠ '.') : findAux ['.'] t 0 = none := by
  cases hf : findAux ['.'] t 0 with
  | none => rfl
  | some k =>
    exfalso
    obtain ⟨⟨u, hu⟩, _⟩ := findAux_some_spec _ _ k hf
    have hmem : '.' ∈ t.drop k := by rw [← hu]; simp
    exact h '.' (List.mem_of_mem_drop hmem) rfl

/-- A field without `.` decodes to what `from_chars` reads from it into a zeroed `int`. -/
theorem parseValue_no_dot (field : Bytes) (h : ∀ c ∈ field, c ≠ '.') :
    parseValue field = ((from_chars field 0 : Int) : ℚ) := by
  unfold parseValue
  rw [find_eq_map _ _ _ (Nat.zero_le _)]
  simp [findAux_dot_none field h]

/-- Claim C18, as amended: a field made of an optional `-` followed by a non-empty digit
run that denotes a number fitting a 32-bit `int` decodes to exactly that integer. -/
theorem parseValue_integer (neg : Bool) (ds : Bytes)
    (hne : ds ≠ []) (hd : ∀ c ∈ ds, isDigit c = true)
    (hlo : INT_MIN ≤ signedVal neg ds) (hhi : signedVal neg ds ≤ INT_MAX) :
    parseValue (signText neg ++ ds) = ((signedVal neg ds : Int) : ℚ) := by
  have hdot : ∀ c ∈ signText neg ++ ds, c ≠ '.' := by
    intro c hc
    rcases List.mem_append.mp hc with hs | hi
    · cases neg <;> simp [signText] at hs
      subst hs; decide
    · exact isDigit_ne_dot c (hd c hi)
  rw [parseValue_no_dot _ hdot, from_chars_signed neg ds 0 hne hd hlo hhi]

/-- The field `-50` decodes to -50 (C18 amended, at this input). -/
theorem parseValue_integer_witness : parseValue "-50".toList = -50 := by
  have h := parseValue_integer true "50".toList (by decide) (by decide) (by decide) (by decide)
  have hs : signedVal true "50".toList = -50 := by decide
  rw [hs] at h
  simpa [signText] using h

/-- Claim C18 as stated fails: `2147483648` does not fit an `int`, `from_chars` leaves
`value` at 0 and the field decodes to 0. -/
theorem parseValue_integer_cex :
    parseValue (signText false ++ "2147483648".toList) = 0 ∧
      ((signedVal false "2147483648".toList : Int) : ℚ) = 2147483648 ∧
      parseValue (signText false ++ "2147483648".toList) ≠
        ((signedVal false "2147483648".toList : Int) : ℚ) := by
  have hdot : ∀ c ∈ signText false ++ "2147483648".toList, c ≠ '.' := by decide
  have h1 : from_chars (signText false ++ "2147483648".toList) 0 = 0 := by decide
  have h2 : signedVal false "2147483648".toList = 2147483648 := by decide
  rw [parseValue_no_dot _ hdot, h1, h2]
  norm_num

/-- Claim C17: for every input that does not contain `"\r\n\r\n"`, `parseTable` returns
the empty list. -/
theorem parseTable_no_header (data : Bytes) (h : ¬ "\r\n\r\n".toList <:+: data) :
    parseTable data = some [] := by
  rw [parseTable_eq]
  cases hk : findAux ['\r', '\n', '\r', '\n'] data 0 with
  | none => rfl
  | some k =>
    exfalso
    obtain ⟨⟨post, hpost⟩, _⟩ := findAux_some_spec _ _ k hk
    apply h
    refine ⟨data.take k, post, ?_⟩
    rw [List.append_assoc]
    show List.take k data ++ (['\r', '\n', '\r', '\n'] ++ post) = data
    rw [hpost, List.take_append_drop]

/-- The statement of C17 at a response without the empty line. -/
theorem parseTable_no_header_witness :
    parseTable "SOURCETABLE 200 OK\r\nSTR;A;\r\nENDSOURCETABLE\r\n".toList = some [] :=
  parseTable_no_header _ (by decide)

theorem connectWait_failure_at (n : Nat) (pre : List Bytes) (post : List Poll) (buf : Bytes)
    (polls : Nat) (hlen : pre.length < n)
    (hnt : ∀ k, 1 ≤ k → k ≤ pre.length →
      ¬ ['\r', '\n', '\r', '\n'] <:+ buf ++ (pre.take k).flatten) :
    connectWait n (pre.map Poll.data ++ Poll.failure :: post) buf polls =
      { failed := true, text := buf ++ pre.flatten, polls := polls + pre.length + 1,
        rest := post } := by
  induction pre generalizing n buf polls with
  | nil =>
    cases n with
    | zero => simp at hlen
    | succ n => simp [connectWait, nextPoll, Poll.avail]
  | cons c cs ih =>
    cases n with
    | zero => simp at hlen
    | succ n =>
      simp only [List.length_cons, Nat.add_lt_add_iff_right] at hlen
      simp only [List.map_cons, List.cons_append, connectWait, nextPoll, Poll.avail, Poll.chunk,
        List.head?_cons, Option.getD_some, List.tail_cons]
      have hneg : ¬ ((c.length : Int) < 0) := by omega
      rw [if_neg hneg]
      by_cases hc : (c.length : Int) > 0
      · rw [if_pos hc]
        have he : ¬ endsWith (buf ++ c) ['\r', '\n', '\r', '\n'] = true := by
          rw [endsWith_iff]
          simpa using hnt 1 (le_refl _) (by simp)
        rw [if_neg he, ih n (buf ++ c) (polls + 1) hlen
          (fun k h1 h2 => by simpa using hnt (k + 1) (by omega) (by simpa using h2))]
        simp; omega
      · rw [if_neg hc]
        have hnil : c = [] := by
          cases c with
          | nil => rfl
          | cons x xs => simp at hc
        subst hnil
        rw [ih n buf (polls + 1) hlen
          (fun k h1 h2 => by simpa using hnt (k + 1) (by omega) (by simpa using h2))]
        simp; omega

theorem tableWait_failure_at (n : Nat) (pre : List Bytes) (post : List Poll) (buf : Bytes)
    (polls : Nat) (hlen : pre.length < n)
    (hnt : ∀ k, 1 ≤ k → k ≤ pre.length → hasTableEnding (buf ++ (pre.take k).flatten) = false) :
    tableWait n (pre.map Poll.data ++ Poll.failure :: post) buf polls =
      { failed := true, text := buf ++ pre.flatten, polls := polls + pre.length + 1,
        rest := post } := by
  induction pre generalizing n buf polls with
  | nil =>
    cases n with
    | zero => simp at hlen
    | succ n => simp [tableWait, nextPoll, Poll.avail]
  | cons c cs ih =>
    cases n with
    | zero => simp at hlen
    | succ n =>
      simp only [List.length_cons, Nat.add_lt_add_iff_right] at hlen
      simp only [List.map_cons, List.cons_append, tableWait, nextPoll, Poll.avail, Poll.chunk,
        List.head?_cons, Option.getD_some, List.tail_cons]
      have hneg : ¬ ((c.length : Int) < 0) := by omega
      rw [if_neg hneg]
      by_cases hc : (c.length : Int) > 0
      · rw [if_pos hc]
        have he : hasTableEnding (buf ++ c) = false := by
          simpa using hnt 1 (le_refl _) (by simp)
        rw [he]
        simp only [Bool.false_eq_true, if_false]
        rw [ih n (buf ++ c) (polls + 1) hlen
          (fun k h1 h2 => by simpa using hnt (k + 1) (by omega) (by simpa using h2))]
        simp; omega
      · rw [if_neg hc]
        have hnil : c = [] := by
          cases c with
          | nil => rfl
          | cons x xs => simp at hc
        subst hnil
        rw [ih n buf (polls + 1) hlen
          (fun k h1 h2 => by simpa using hnt (k + 1) (by omega) (by simpa using h2))]
        simp; omega

/-- Claim C19: when the polls of a response wait made so far delivered the chunks `pre`
without ending the wait and the next poll reports a negative count, the operation
returns Error at once, whatever has been accumulated: exactly one more poll is made and
the polls behind it are left unread.  For `connect` the wait has not ended when fewer
than 49 polls were made and the text never ended with `"\r\n\r\n"`, for `getMountPoints`
when fewer than 50 polls were made and the text never ended with the table terminator. -/
theorem wait_failure_is_error (encode : Bytes → Bytes → Bytes) (self : NtripClient)
    (nlogin : ntrip_login) (name password : Bytes) (pre : List Bytes) (post : List Poll) :
    (self.m_tcp = false → pre.length < 49 →
      (∀ k, 1 ≤ k → k ≤ pre.length → ¬ "\r\n\r\n".toList <:+ (pre.take k).flatten) →
      ∃ out, connect encode self nlogin
          { connectResult := io_status.Success, writeResult := io_status.Success,
            script := pre.map Poll.data ++ Poll.failure :: post } = Call.returned out ∧
        out.result = status.error ∧ out.responseText = pre.flatten ∧
        out.polls = pre.length + 1 ∧ out.rest = post) ∧
    (pre.length < 50 →
      (∀ k, 1 ≤ k → k ≤ pre.length → hasTableEnding (pre.take k).flatten = false) →
      (getMountPoints encode
          { connectResult := io_status.Success, writeResult := io_status.Success,
            script := pre.map Poll.data ++ Poll.failure :: post } name password).result =
        some (Sum.inr io_status.Error) ∧
      (getMountPoints encode
          { connectResult := io_status.Success, writeResult := io_status.Success,
            script := pre.map Poll.data ++ Poll.failure :: post } name password).polls =
        pre.length + 1) := by
  constructor
  · intro hfree hlen hcon
    have h1 := connectWait_failure_at (50 - 1) pre post [] 0 (by omega)
      (fun k hk1 hk2 => by simpa using hcon k hk1 hk2)
    simp only [connect, hfree, Bool.false_eq_true, if_false, ne_eq, not_true_eq_false, h1]
    exact ⟨_, rfl, by simp, by simp, by simp, by simp⟩
  · intro hlen htab
    have h2 := tableWait_failure_at 50 pre post [] 0 hlen
      (fun k hk1 hk2 => by simpa using htab k hk1 hk2)
    constructor
    · simp [getMountPoints, h2]
    · simp [getMountPoints, h2]

/-- The statement of C19 at a response `"ICY 200 OK\r\n\r\n"`, which would end the wait of
`connect` but not that of `getMountPoints`, and at one that starts with `"ICY 200 OK\r\n"`
for `connect`, each followed by a poll that fails. -/
theorem wait_failure_is_error_witness :
    (∃ out, connect (fun _ _ => "dTpw".toList) { m_tcp := false, m_aio := false }
        { mountpoint := "CMR".toList, username := "u".toList, password := "p".toList }
        { connectResult := io_status.Success, writeResult := io_status.Success,
          script := ["ICY 200 OK\r\n".toList].map Poll.data ++
            Poll.failure :: [Poll.data "\r\n".toList] } = Call.returned out ∧
      out.result = status.error ∧ out.responseText = ["ICY 200 OK\r\n".toList].flatten ∧
      out.polls = ["ICY 200 OK\r\n".toList].length + 1 ∧ out.rest = [Poll.data "\r\n".toList]) ∧
    (getMountPoints (fun _ _ => "dTpw".toList)
        { connectResult := io_status.Success, writeResult := io_status.Success,
          script := ["ICY 200 OK\r\n\r\n".toList].map Poll.data ++
            Poll.failure :: [Poll.data "\r\n".toList] } "u".toList "p".toList).result =
      some (Sum.inr io_status.Error) ∧
    (getMountPoints (fun _ _ => "dTpw".toList)
        { connectResult := io_status.Success, writeResult := io_status.Success,
          script := ["ICY 200 OK\r\n\r\n".toList].map Poll.data ++
            Poll.failure :: [Poll.data "\r\n".toList] } "u".toList "p".toList).polls =
      ["ICY 200 OK\r\n\r\n".toList].length + 1 :=
  ⟨(wait_failure_is_error (fun _ _ => "dTpw".toList) { m_tcp := false, m_aio := false }
      { mountpoint := "CMR".toList, username := "u".toList, password := "p".toList }
      "u".toList "p".toList ["ICY 200 OK\r\n".toList] [Poll.data "\r\n".toList]).1
      rfl (by decide) (by decide),
   (wait_failure_is_error (fun _ _ => "dTpw".toList) { m_tcp := false, m_aio := false }
      { mountpoint := "CMR".toList, username := "u".toList, password := "p".toList }
      "u".toList "p".toList ["ICY 200 OK\r\n\r\n".toList] [Poll.data "\r\n".toList]).2
      (by decide) (by decide)⟩

theorem tableWait_silent_text (n : Nat) (script : List Poll) (buf : Bytes) (polls : Nat)
    (h : ∀ p ∈ script, p = Poll.data []) :
    (tableWait n script buf polls).text = buf := by
  induction n generalizing script polls with
  | zero => rfl
  | succ n ih =>
    cases script with
    | nil =>
      simp only [tableWait, nextPoll, Poll.avail, List.head?_nil, Option.getD_none,
        List.length_nil, List.tail_nil]
      simp only [Nat.cast_zero, lt_self_iff_false, if_false]
      exact ih [] _ (by simp)
    | cons p rest =>
      have hp : p = Poll.data [] := h p (by simp)
      subst hp
      simp only [tableWait, nextPoll, Poll.avail, List.head?_cons, Option.getD_some,
        List.length_nil, List.tail_cons]
      simp only [Nat.cast_zero, lt_self_iff_false, if_false]
      exact ih rest _ (fun q hq => h q (by simp [hq]))

theorem tableWait_segments (n : Nat) (segs : List Bytes) (buf : Bytes) (polls : Nat)
    (hne : ∀ s ∈ segs, s ≠ []) (hlen : segs.length ≤ n)
    (hearly : ∀ k, 1 ≤ k → k < segs.length →
      hasTableEnding (buf ++ (segs.take k).flatten) = false) :
    (tableWait n (segs.map Poll.data) buf polls).failed = false ∧
      (tableWait n (segs.map Poll.data) buf polls).text = buf ++ segs.flatten := by
  induction segs generalizing n buf polls with
  | nil =>
    simp only [List.map_nil, List.flatten_nil, List.append_nil]
    exact ⟨(tableWait_silent n [] buf polls (by simp)).2,
      tableWait_silent_text n [] buf polls (by simp)⟩
  | cons c cs ih =>
    cases n with
    | zero => simp at hlen
    | succ n =>
      simp only [List.length_cons, Nat.add_le_add_iff_right] at hlen
      have hcne : c ≠ [] := hne c (by simp)
      have hc : (c.length : Int) > 0 := by
        have := List.length_pos.mpr hcne
        omega
      have hneg : ¬ ((c.length : Int) < 0) := by omega
      simp only [List.map_cons, tableWait, nextPoll, Poll.avail, Poll.chunk, List.head?_cons,
        Option.getD_some, List.tail_cons]
      rw [if_neg hneg, if_pos hc]
      by_cases he : hasTableEnding (buf ++ c) = true
      · rw [if_pos he]
        cases cs with
        | nil => simp
        | cons d ds =>
          have := hearly 1 (le_refl _) (by simp)
          simp [he] at this
      · rw [if_neg he]
        have := ih n (buf ++ c) (polls + 1) (fun s hs => hne s (by simp [hs])) hlen
          (fun k h1 h2 => by
            simpa using hearly (k + 1) (by omega) (by simpa using h2))
        simpa using this

theorem getMountPoints_result (encode : Bytes → Bytes → Bytes) (script : List Poll)
    (name password text : Bytes)
    (hf : (tableWait 50 script [] 0).failed = false)
    (ht : (tableWait 50 script [] 0).text = text) :
    (getMountPoints encode
      { connectResult := io_status.Success, writeResult := io_status.Success, script := script }
      name password).result =
      if hasTableEnding text then (parseTable text).map Sum.inl
      else some (Sum.inr io_status.Error) := by
  simp only [getMountPoints, ne_eq, not_true_eq_false, if_false, hf, ht, Bool.false_eq_true]
  cases hasTableEnding text <;> simp

/-- Claim C16, as amended: for every way of cutting a response `T` into at most 50 non-empty
segments delivered on successive polls such that no proper initial run of the segments
ends with the table terminator, `getMountPoints` returns the same result as when `T` is
delivered as one segment, namely `parseTable T` when `T` ends with the terminator and
Error otherwise. -/
theorem getMountPoints_fragments (encode : Bytes → Bytes → Bytes) (name password : Bytes)
    (segs : List Bytes)
    (hne : ∀ s ∈ segs, s ≠ []) (hlen : segs.length ≤ 50)
    (hearly : ∀ k, 1 ≤ k → k < segs.length → hasTableEnding (segs.take k).flatten = false) :
    (getMountPoints encode
      { connectResult := io_status.Success, writeResult := io_status.Success,
        script := segs.map Poll.data } name password).result =
    (getMountPoints encode
      { connectResult := io_status.Success, writeResult := io_status.Success,
        script := [Poll.data segs.flatten] } name password).result ∧
    (getMountPoints encode
      { connectResult := io_status.Success, writeResult := io_status.Success,
        script := [Poll.data segs.flatten] } name password).result =
      if hasTableEnding segs.flatten then (parseTable segs.flatten).map Sum.inl
      else some (Sum.inr io_status.Error) := by
  obtain ⟨hf, ht⟩ := tableWait_segments 50 segs [] 0 hne hlen
    (fun k h1 h2 => by simpa using hearly k h1 h2)
  have hmany := getMountPoints_result encode (segs.map Poll.data) name password segs.flatten hf
    (by simpa using ht)
  have hone : (getMountPoints encode
      { connectResult := io_status.Success, writeResult := io_status.Success,
        script := [Poll.data segs.flatten] } name password).result =
      if hasTableEnding segs.flatten then (parseTable segs.flatten).map Sum.inl
      else some (Sum.inr io_status.Error) := by
    by_cases hT : segs.flatten = []
    · rw [hT]
      exact getMountPoints_result encode [Poll.data []] name password []
        (tableWait_silent 50 _ [] 0 (by simp)).2 (tableWait_silent_text 50 _ [] 0 (by simp))
    · obtain ⟨hf1, ht1⟩ := tableWait_segments 50 [segs.flatten] [] 0 (by simpa using hT)
        (by simp) (fun k h1 h2 => by simp at h2; omega)
      exact getMountPoints_result encode _ name password segs.flatten
        (by simpa using hf1) (by simpa using ht1)
  exact ⟨hmany.trans hone.symm, hone⟩

/-- The statement of C16 (amended) for a table cut in the middle of the terminator. -/
theorem getMountPoints_fragments_witness :
    (getMountPoints (fun _ _ => "dTpw".toList)
      { connectResult := io_status.Success, writeResult := io_status.Success,
        script := ["\r\n\r\nSTR;A;\r\nEND".toList, "SOURCETABLE\r\n".toList].map Poll.data }
      [] []).result =
    (getMountPoints (fun _ _ => "dTpw".toList)
      { connectResult := io_status.Success, writeResult := io_status.Success,
        script := [Poll.data
          ["\r\n\r\nSTR;A;\r\nEND".toList, "SOURCETABLE\r\n".toList].flatten] }
      [] []).result ∧
    (getMountPoints (fun _ _ => "dTpw".toList)
      { connectResult := io_status.Success, writeResult := io_status.Success,
        script := [Poll.data
          ["\r\n\r\nSTR;A;\r\nEND".toList, "SOURCETABLE\r\n".toList].flatten] }
      [] []).result =
      if hasTableEnding ["\r\n\r\nSTR;A;\r\nEND".toList, "SOURCETABLE\r\n".toList].flatten then
        (parseTable ["\r\n\r\nSTR;A;\r\nEND".toList, "SOURCETABLE\r\n".toList].flatten).map
          Sum.inl
      else some (Sum.inr io_status.Error) :=
  getMountPoints_fragments (fun _ _ => "dTpw".toList) [] []
    ["\r\n\r\nSTR;A;\r\nEND".toList, "SOURCETABLE\r\n".toList] (by decide) (by decide)
    (by decide)

/-- Claim C16 as stated fails: when a segment boundary falls behind a first
`"ENDSOURCETABLE\r\n"` the wait stops there, and the rows behind it are not returned. -/
theorem getMountPoints_fragments_cex :
    (getMountPoints (fun _ _ => "dTpw".toList)
      { connectResult := io_status.Success, writeResult := io_status.Success,
        script := ["\r\n\r\nA\r\nENDSOURCETABLE\r\n".toList,
          "B\r\nENDSOURCETABLE\r\n".toList].map Poll.data } [] []).result =
      some (Sum.inl [mkMountPoint ['A']]) ∧
    (getMountPoints (fun _ _ => "dTpw".toList)
      { connectResult := io_status.Success, writeResult := io_status.Success,
        script := [Poll.data ["\r\n\r\nA\r\nENDSOURCETABLE\r\n".toList,
          "B\r\nENDSOURCETABLE\r\n".toList].flatten] } [] []).result =
      some (Sum.inl [mkMountPoint ['A'], mkMountPoint ['B']]) ∧
    (getMountPoints (fun _ _ => "dTpw".toList)
      { connectResult := io_status.Success, writeResult := io_status.Success,
        script := ["\r\n\r\nA\r\nENDSOURCETABLE\r\n".toList,
          "B\r\nENDSOURCETABLE\r\n".toList].map Poll.data } [] []).result ≠
    (getMountPoints (fun _ _ => "dTpw".toList)
      { connectResult := io_status.Success, writeResult := io_status.Success,
        script := [Poll.data ["\r\n\r\nA\r\nENDSOURCETABLE\r\n".toList,
          "B\r\nENDSOURCETABLE\r\n".toList].flatten] } [] []).result := by
  refine ⟨by rfl, by rfl, ?_⟩
  intro h
  have h1 := congrArg (Option.map (Sum.elim List.length (fun _ => 0))) h
  revert h1
  decide

theorem relay_no_send (script : List Poll) (r : io_status) :
    Action.send_gga r ∉ (relay script).1 := by
  unfold relay
  by_cases h : (nextPoll script).avail > 0 <;> simp [h]

/-- A pass through the loop body that calls `send_gga` has seen `is_sending` return false. -/
theorem loopBody_send (self : NtripClient) (counter : Int) (io : Aio) (script : List Poll)
    (counter1 : Int) (acts : List Action) (script1 : List Poll) (r : io_status)
    (h : loopBody self counter io script = Call.returned (counter1, acts, script1))
    (hsend : Action.send_gga r ∈ acts) :
    io.check1 ≠ io_status.InProgress ∧ io.check2 = io_status.Success ∧
      [Action.Check io.check1, Action.Check io.check2, Action.End, Action.send_gga r] <+: acts := by
  unfold loopBody at h
  by_cases hdue : counter + 1 = timeout
  · simp only [hdue, if_true] at h
    unfold is_sending at h
    by_cases h1 : io.check1 = io_status.InProgress
    · simp only [h1, if_true] at h
      cases h
      simp [relay_no_send] at hsend
    · simp only [h1, if_false] at h
      by_cases h2 : io.check2 = io_status.Success
      · simp only [h2, if_true] at h
        unfold send_gga at h
        by_cases hm : self.m_aio = true
        · simp only [hm, Bool.not_true, Bool.false_eq_true, if_false] at h
          cases h
          have hr : r = io.write := by
            simpa [relay_no_send] using hsend
          subst hr
          exact ⟨h1, h2, by simp [h2]⟩
        · simp [hm] at h
      · simp [h2] at h
  · simp only [hdue, if_false] at h
    cases h
    exact absurd hsend (relay_no_send script r)

/-- Every completed tick of a stretch of the loop is a pass through the loop body. -/
theorem steady_tick (self : NtripClient) (counter : Int) (ios : List Aio) (script : List Poll)
    (i : Nat) (acts : List Action)
    (h : (steady self counter ios script).ticks[i]? = some acts) :
    ∃ io c s c1 s1, ios[i]? = some io ∧ loopBody self c io s = Call.returned (c1, acts, s1) := by
  induction ios generalizing counter script i with
  | nil => simp [steady] at h
  | cons io ios ih =>
    unfold steady at h
    cases hb : loopBody self counter io script with
    | thrown what => simp [hb] at h
    | returned v =>
      obtain ⟨c1, a1, s1⟩ := v
      simp only [hb] at h
      cases i with
      | zero =>
        simp only [List.getElem?_cons_zero, Option.some.injEq] at h
        subst h
        exact ⟨io, counter, script, c1, s1, by simp, hb⟩
      | succ i =>
        simp only [List.getElem?_cons_succ] at h
        obtain ⟨io1, c, s, c2, s2, hio, hl⟩ := ih c1 s1 i h
        exact ⟨io1, c, s, c2, s2, by simpa using hio, hl⟩

/-- Claim C14: in every stretch of the steady-state loop, whatever the write statuses are,
a tick on which `send_gga` is called is a tick on which `is_sending` found the previous
write not InProgress, observed Success and called `End` before the report was sent. -/
theorem send_gga_only_after_success (self : NtripClient) (counter : Int) (ios : List Aio)
    (script : List Poll) (i : Nat) (acts : List Action) (r : io_status)
    (h : (steady self counter ios script).ticks[i]? = some acts)
    (hsend : Action.send_gga r ∈ acts) :
    ∃ io, ios[i]? = some io ∧ io.check1 ≠ io_status.InProgress ∧
      io.check2 = io_status.Success ∧
      [Action.Check io.check1, Action.Check io.check2, Action.End, Action.send_gga r] <+: acts := by
  obtain ⟨io, c, s, c1, s1, hio, hl⟩ := steady_tick self counter ios script i acts h
  exact ⟨io, hio, loopBody_send self c io s c1 acts s1 r hl hsend⟩

/-- The statement of C14 at a run whose write completes on the third tick. -/
theorem send_gga_only_after_success_witness :
    ∃ io, [Aio.mk io_status.InProgress io_status.InProgress io_status.Success,
        Aio.mk io_status.InProgress io_status.InProgress io_status.Success,
        Aio.mk io_status.Success io_status.Success io_status.Success][2]? = some io ∧
      io.check1 ≠ io_status.InProgress ∧ io.check2 = io_status.Success ∧
      [Action.Check io.check1, Action.Check io.check2, Action.End,
        Action.send_gga io_status.Success] <+:
        [Action.Check io_status.Success, Action.Check io_status.Success, Action.End,
          Action.send_gga io_status.Success, Action.available 0] :=
  send_gga_only_after_success { m_tcp := true, m_aio := true } (timeout - 3)
    [Aio.mk io_status.InProgress io_status.InProgress io_status.Success,
     Aio.mk io_status.InProgress io_status.InProgress io_status.Success,
     Aio.mk io_status.Success io_status.Success io_status.Success] [] 2
    [Action.Check io_status.Success, Action.Check io_status.Success, Action.End,
      Action.send_gga io_status.Success, Action.available 0] io_status.Success
    (by decide) (by decide)

/-- Claim C15, evaluated on the code: after a handshake that returned ok, a tick on which
`available()` is negative does not end the loop; the next ticks read and forward bytes
and send a position report. -/
theorem negative_available_ignored :
    output_correction (fun _ _ => "dTpw".toList)
      { mountpoint := "CMR".toList, username := "u".toList, password := "p".toList }
      { connectResult := io_status.Success, writeResult := io_status.Success,
        script := [Poll.data "ICY 200 OK\r\n\r\n".toList, Poll.failure, Poll.data ['x']] }
      [Aio.mk io_status.Success io_status.Success io_status.Success,
       Aio.mk io_status.Success io_status.Success io_status.Success,
       Aio.mk io_status.Success io_status.Success io_status.Success] =
    { exit := none,
      run := { ticks := [[Action.available (-1)],
                         [Action.available 1, Action.receive ['x']],
                         [Action.Check io_status.Success, Action.Check io_status.Success,
                          Action.End, Action.send_gga io_status.Success, Action.available 0]],
               fatal := none } } := by
  decide

/-- Once the counter has passed `timeout` no tick of the loop sends a report: the test
is `counter == timeout` and the counter only grows. -/
theorem steady_past_timeout (self : NtripClient) (counter : Int) (ios : List Aio)
    (script : List Poll) (h : timeout ≤ counter) :
    (steady self counter ios script).fatal = none ∧
    (steady self counter ios script).ticks.length = ios.length ∧
    ∀ acts ∈ (steady self counter ios script).ticks, ∀ r, Action.send_gga r ∉ acts := by
  induction ios generalizing counter script with
  | nil => simp [steady]
  | cons io ios ih =>
    have hne : ¬ counter + 1 = timeout := by omega
    have hb : loopBody self counter io script =
        Call.returned (counter + 1, (relay script).1, (relay script).2) := by
      simp [loopBody, hne]
    obtain ⟨h1, h2, h3⟩ := ih (counter + 1) (relay script).2 (by omega)
    rw [steady, hb]
    refine ⟨h1, by simp [h2], ?_⟩
    intro acts hacts r
    simp only [List.mem_cons] at hacts
    rcases hacts with rfl | hacts
    · exact relay_no_send script r
    · exact h3 acts hacts r

/-- Claim C20, evaluated on the code: when the write is still InProgress on the tick on
which the counter reaches `timeout` (the third tick of the loop), the report is held
back, and it is not sent on any later tick, whatever the write status is then: every
later tick completes, and no tick of the run calls `send_gga`. -/
theorem held_back_report_never_sent (self : NtripClient) (io1 io2 held : Aio)
    (ios : List Aio) (script : List Poll) (hheld : held.check1 = io_status.InProgress) :
    (steady self (timeout - 3) (io1 :: io2 :: held :: ios) script).fatal = none ∧
    (steady self (timeout - 3) (io1 :: io2 :: held :: ios) script).ticks.length =
      ios.length + 3 ∧
    ∀ acts ∈ (steady self (timeout - 3) (io1 :: io2 :: held :: ios) script).ticks,
      ∀ r, Action.send_gga r ∉ acts := by
  have hb1 : loopBody self (timeout - 3) io1 script =
      Call.returned (timeout - 2, (relay script).1, (relay script).2) := by
    simp [loopBody, timeout]
  have hb2 : loopBody self (timeout - 2) io2 (relay script).2 =
      Call.returned (timeout - 1, (relay (relay script).2).1, (relay (relay script).2).2) := by
    simp [loopBody, timeout]
  have hb3 : loopBody self (timeout - 1) held (relay (relay script).2).2 =
      Call.returned (timeout, [Action.Check held.check1] ++
        (relay (relay (relay script).2).2).1, (relay (relay (relay script).2).2).2) := by
    simp [loopBody, timeout, is_sending, hheld]
  obtain ⟨h1, h2, h3⟩ := steady_past_timeout self timeout ios
    (relay (relay (relay script).2).2).2 (le_refl _)
  rw [steady, hb1]
  simp only []
  rw [steady, hb2]
  simp only []
  rw [steady, hb3]
  refine ⟨h1, by simp [h2], ?_⟩
  intro acts hacts r
  simp only [List.mem_cons] at hacts
  rcases hacts with rfl | rfl | rfl | hacts
  · exact relay_no_send script r
  · exact relay_no_send _ r
  · simp [relay_no_send]
  · exact h3 acts hacts r

/-- The run of C20 with the write InProgress on the third tick and Success on the four
ticks that follow: seven ticks complete and none of them sends a report. -/
theorem held_back_report_never_sent_witness :
    (steady { m_tcp := true, m_aio := true } (timeout - 3)
      (Aio.mk io_status.Success io_status.Success io_status.Success ::
       Aio.mk io_status.Success io_status.Success io_status.Success ::
       Aio.mk io_status.InProgress io_status.InProgress io_status.Success ::
       List.replicate 4 (Aio.mk io_status.Success io_status.Success io_status.Success))
      []).ticks.length = 7 ∧
    ∀ acts ∈ (steady { m_tcp := true, m_aio := true } (timeout - 3)
      (Aio.mk io_status.Success io_status.Success io_status.Success ::
       Aio.mk io_status.Success io_status.Success io_status.Success ::
       Aio.mk io_status.InProgress io_status.InProgress io_status.Success ::
       List.replicate 4 (Aio.mk io_status.Success io_status.Success io_status.Success))
      []).ticks, ∀ r, Action.send_gga r ∉ acts := by
  obtain ⟨_, h2, h3⟩ := held_back_report_never_sent { m_tcp := true, m_aio := true }
    (Aio.mk io_status.Success io_status.Success io_status.Success)
    (Aio.mk io_status.Success io_status.Success io_status.Success)
    (Aio.mk io_status.InProgress io_status.InProgress io_status.Success)
    (List.replicate 4 (Aio.mk io_status.Success io_status.Success io_status.Success)) [] rfl
  exact ⟨by simpa using h2, h3⟩

/-! ## The sign of a decoded coordinate, and what the handshake consumes -/

/-- What the decoder returns for a field `[-]I.F` whose parts fit an `int`. -/
theorem parseValue_signed_fraction (neg : Bool) (I F : Bytes)
    (hI : I ≠ []) (hId : ∀ c ∈ I, isDigit c = true)
    (hF : F ≠ []) (hFd : ∀ c ∈ F, isDigit c = true)
    (hIr : (natOfDigits I : Int) ≤ INT_MAX) (hFr : (natOfDigits F : Int) ≤ INT_MAX)
    (hn : F.length ≤ 22) :
    parseValue (signText neg ++ I ++ '.' :: F) =
      roundDouble (roundDouble ((natOfDigits F : ℚ) / (10 : ℚ) ^ F.length) +
        (signedVal neg I : ℚ)) := by
  have hdot : ∀ c ∈ signText neg ++ I, c ≠ '.' := by
    intro c hc
    rcases List.mem_append.mp hc with hs | hi
    · cases neg <;> simp [signText] at hs
      subst hs; decide
    · exact isDigit_ne_dot c (hId c hi)
  have hnn : (0 : Int) ≤ (natOfDigits I : Int) := Int.natCast_nonneg _
  have hlo : INT_MIN ≤ signedVal neg I := by
    unfold INT_MAX at hIr
    cases neg <;> simp only [signedVal, if_true, if_false, Bool.false_eq_true] <;>
      unfold INT_MIN <;> omega
  have hhi : signedVal neg I ≤ INT_MAX := by
    unfold INT_MAX at hIr ⊢
    cases neg <;> simp only [signedVal, if_true, if_false, Bool.false_eq_true] <;> omega
  rw [parseValue_split _ _ hdot, from_chars_signed neg I 0 hI hId hlo hhi,
    from_chars_digits F 0 hF hFd hFr, fracQuotient_of_le _ _ hn]
  simp

theorem digitVal_eq_zero (c : Char) (h : isDigit c = true) : digitVal c = 0 ↔ c = '0' := by
  constructor
  · intro h0
    simp [isDigit, Char.le_def] at h
    have e1 : ('0' : Char).toNat = 48 := by decide
    have hge : 48 ≤ c.toNat := by
      rw [← e1]; exact h.1
    unfold digitVal at h0
    have h48 : c.toNat = 48 := by omega
    have := Char.ofNat_toNat c
    rw [h48] at this
    exact this.symm
  · rintro rfl
    decide

theorem natOfDigits_foldl_zero (ds : Bytes) (acc : Nat) (h : ∀ c ∈ ds, isDigit c = true) :
    ds.foldl (fun a c => 10 * a + digitVal c) acc = 0 ↔ acc = 0 ∧ ∀ c ∈ ds, c = '0' := by
  induction ds generalizing acc with
  | nil => simp
  | cons c cs ih =>
    have hc := digitVal_eq_zero c (h c (by simp))
    simp only [List.foldl_cons, List.mem_cons, forall_eq_or_imp]
    rw [ih _ (fun d hd => h d (by simp [hd]))]
    constructor
    · rintro ⟨h0, hz⟩
      exact ⟨by omega, hc.mp (by omega), hz⟩
    · rintro ⟨h0, hcz, hz⟩
      exact ⟨by rw [h0, hc.mpr hcz], hz⟩

/-- A digit run denotes 0 exactly when it consists of zeros only. -/
theorem natOfDigits_eq_zero (ds : Bytes) (h : ∀ c ∈ ds, isDigit c = true) :
    natOfDigits ds = 0 ↔ ∀ c ∈ ds, c = '0' := by
  unfold natOfDigits
  rw [natOfDigits_foldl_zero ds 0 h]
  simp

/-- Claim C21, as amended: for every field `[-]I.F` with `I` and `F` non-empty digit runs
that fit a 32-bit `int`, `F` of at most 22 digits, the decoder applies the sign to `I`
only: it returns the `double` sum of `+I` or `-I` and the `double` quotient `F/10^n`.
When the quotient and the sum are doubles, so that nothing is rounded, the decoded value
equals the decimal value the field denotes if and only if the field has no leading `-`
or `F` consists only of zeros, and a negative field with a non-zero fraction decodes to
`-I + F/10^n`, which is not `-(I + F/10^n)`. -/
theorem parseValue_sign_defect (neg : Bool) (I F : Bytes)
    (hI : I ≠ []) (hId : ∀ c ∈ I, isDigit c = true)
    (hF : F ≠ []) (hFd : ∀ c ∈ F, isDigit c = true)
    (hIr : (natOfDigits I : Int) ≤ INT_MAX) (hFr : (natOfDigits F : Int) ≤ INT_MAX)
    (hn : F.length ≤ 22) :
    parseValue (signText neg ++ I ++ '.' :: F) =
      roundDouble (roundDouble ((natOfDigits F : ℚ) / (10 : ℚ) ^ F.length) +
        (signedVal neg I : ℚ)) ∧
    (isDouble ((natOfDigits F : ℚ) / (10 : ℚ) ^ F.length) →
      isDouble ((natOfDigits F : ℚ) / (10 : ℚ) ^ F.length + (signedVal neg I : ℚ)) →
      (parseValue (signText neg ++ I ++ '.' :: F) = decimalValue neg I F ↔
        (neg = false ∨ ∀ c ∈ F, c = '0')) ∧
      (neg = true → (∃ c ∈ F, c ≠ '0') →
        parseValue (signText neg ++ I ++ '.' :: F) =
          -(natOfDigits I : ℚ) + (natOfDigits F : ℚ) / (10 : ℚ) ^ F.length ∧
        parseValue (signText neg ++ I ++ '.' :: F) ≠
          -((natOfDigits I : ℚ) + (natOfDigits F : ℚ) / (10 : ℚ) ^ F.length))) := by
  have hround := parseValue_signed_fraction neg I F hI hId hF hFd hIr hFr hn
  refine ⟨hround, fun hd1 hd2 => ?_⟩
  have hv : parseValue (signText neg ++ I ++ '.' :: F) =
      (signedVal neg I : ℚ) + (natOfDigits F : ℚ) / (10 : ℚ) ^ F.length := by
    rw [hround, roundDouble_of_isDouble _ hd1, roundDouble_of_isDouble _ hd2, add_comm]
  have hz := natOfDigits_eq_zero F hFd
  have hpow : (0 : ℚ) < (10 : ℚ) ^ F.length := by positivity
  have hfrac : (natOfDigits F : ℚ) / (10 : ℚ) ^ F.length = 0 ↔ natOfDigits F = 0 := by
    rw [div_eq_zero_iff]
    constructor
    · rintro (h | h)
      · exact_mod_cast h
      · exact absurd h (ne_of_gt hpow)
    · intro h
      left
      exact_mod_cast h
  cases neg with
  | false =>
    simp only [true_or, iff_true, Bool.false_eq_true, false_implies, and_true]
    rw [hv]
    simp [signedVal, decimalValue]
  | true =>
    have hv1 : parseValue (signText true ++ I ++ '.' :: F) =
        -(natOfDigits I : ℚ) + (natOfDigits F : ℚ) / (10 : ℚ) ^ F.length := by
      rw [hv]
      simp [signedVal]
    constructor
    · rw [hv1]
      simp only [decimalValue, if_true, Bool.true_eq_false, false_or]
      rw [← hz, ← hfrac]
      constructor
      · intro h
        linarith
      · intro h
        rw [h]
        ring
    · intro _ hnz
      refine ⟨hv1, ?_⟩
      rw [hv1]
      intro h
      have h0 : (natOfDigits F : ℚ) / (10 : ℚ) ^ F.length = 0 := by linarith
      obtain ⟨c, hc, hne⟩ := hnz
      exact hne (hz.mp (hfrac.mp h0) c hc)

/-- The field `-50.25` decodes to -49.75, not to the value it denotes (C21 amended, at
this input). -/
theorem parseValue_sign_defect_witness :
    parseValue "-50.25".toList = -199 / 4 ∧
      parseValue "-50.25".toList ≠ decimalValue true "50".toList "25".toList := by
  obtain ⟨_, hex⟩ := parseValue_sign_defect true "50".toList "25".toList
    (by decide) (by decide) (by decide) (by decide) (by decide) (by decide) (by decide)
  have h50 : natOfDigits "50".toList = 50 := by decide
  have h25 : natOfDigits "25".toList = 25 := by decide
  have hl : "25".toList.length = 2 := by decide
  have hs : signedVal true "50".toList = -50 := by decide
  obtain ⟨hiff, hneg⟩ := hex
    ⟨1, -2, by norm_num, by norm_num, by norm_num, by rw [h25, hl]; norm_num⟩
    ⟨-199, -2, by norm_num, by norm_num, by norm_num, by rw [h25, hl, hs]; norm_num⟩
  obtain ⟨hval, hne⟩ := hneg rfl ⟨'2', by decide, by decide⟩
  have e : "-50.25".toList = signText true ++ "50".toList ++ '.' :: "25".toList := by decide
  rw [e]
  refine ⟨?_, ?_⟩
  · rw [hval, h50, h25, hl]
    norm_num
  · intro h
    exact (by decide : ¬ (true = false ∨ ∀ c ∈ "25".toList, c = '0')) (hiff.mp h)

/-- Claim C21 as stated fails: the field `0.1` has no leading `-`, yet it decodes to a
`double`, which is not the decimal value 1/10 it denotes; and the negative field
`-5.00000000000000000001` decodes to exactly -5, not to `-I + F/10^n`. -/
theorem parseValue_sign_defect_cex :
    parseValue (signText false ++ "0".toList ++ '.' :: "1".toList) ≠
      decimalValue false "0".toList "1".toList ∧
    parseValue (signText true ++ "5".toList ++ '.' :: "00000000000000000001".toList) = -5 ∧
    parseValue (signText true ++ "5".toList ++ '.' :: "00000000000000000001".toList) ≠
      -(natOfDigits "5".toList : ℚ) + (natOfDigits "00000000000000000001".toList : ℚ) /
        (10 : ℚ) ^ "00000000000000000001".toList.length := by
  have h0 : natOfDigits "0".toList = 0 := by decide
  have h1 : natOfDigits "1".toList = 1 := by decide
  have hl : "1".toList.length = 1 := by decide
  have e1 : decimalValue false "0".toList "1".toList = 1 / 10 := by
    simp only [decimalValue, Bool.false_eq_true, if_false, h0, h1, hl]
    norm_num
  have hfirst : parseValue (signText false ++ "0".toList ++ '.' :: "1".toList) ≠ 1 / 10 := by
    have hdot : ∀ c ∈ signText false ++ "0".toList, c ≠ '.' := by decide
    obtain ⟨m, e, hme⟩ := roundDouble_dyadic
      (fracQuotient (from_chars "1".toList 0) "1".toList.length +
        ((from_chars (signText false ++ "0".toList) 0 : Int) : ℚ))
    rw [parseValue_split _ _ hdot, hme]
    exact fun h => tenth_not_dyadic m e h.symm
  have h5 : natOfDigits "5".toList = 5 := by decide
  have hF : natOfDigits "00000000000000000001".toList = 1 := by decide
  have hn : "00000000000000000001".toList.length = 20 := by decide
  have hs : signedVal true "5".toList = -5 := by decide
  have hsecond : parseValue
      (signText true ++ "5".toList ++ '.' :: "00000000000000000001".toList) = -5 := by
    rw [parseValue_signed_fraction true "5".toList "00000000000000000001".toList
      (by decide) (by decide) (by decide) (by decide) (by decide) (by decide) (by decide),
      hF, hn, hs]
    have := roundDouble_minus_five
    simpa using this
  rw [e1]
  refine ⟨hfirst, hsecond, ?_⟩
  rw [hsecond, h5, hF, hn]
  norm_num

/-- Chunks that never complete the terminator are all read by the wait loop of `connect`. -/
theorem connectWait_chunks (n : Nat) (chunks : List Bytes) (post : List Poll) (buf : Bytes)
    (polls : Nat) (hlen : chunks.length ≤ n)
    (hnt : ∀ k, 1 ≤ k → k ≤ chunks.length →
      ¬ ['\r', '\n', '\r', '\n'] <:+ buf ++ (chunks.take k).flatten) :
    connectWait n (chunks.map Poll.data ++ post) buf polls =
      connectWait (n - chunks.length) post (buf ++ chunks.flatten) (polls + chunks.length) := by
  induction chunks generalizing n buf polls with
  | nil => simp
  | cons c cs ih =>
    cases n with
    | zero => simp at hlen
    | succ n =>
      simp only [List.length_cons, Nat.add_le_add_iff_right] at hlen
      simp only [List.map_cons, List.cons_append, connectWait, nextPoll, Poll.avail, Poll.chunk,
        List.head?_cons, Option.getD_some, List.tail_cons, List.length_cons,
        Nat.add_sub_add_right, List.flatten_cons]
      have hneg : ¬ ((c.length : Int) < 0) := by omega
      rw [if_neg hneg]
      by_cases hc : (c.length : Int) > 0
      · rw [if_pos hc]
        have he : ¬ endsWith (buf ++ c) ['\r', '\n', '\r', '\n'] = true := by
          rw [endsWith_iff]
          simpa using hnt 1 (le_refl _) (by simp)
        rw [if_neg he, ih n (buf ++ c) (polls + 1) hlen
          (fun k h1 h2 => by simpa using hnt (k + 1) (by omega) (by simpa using h2))]
        simp only [List.append_assoc]
        congr 1
        omega
      · rw [if_neg hc]
        have hnil : c = [] := by
          cases c with
          | nil => rfl
          | cons x xs => simp at hc
        subst hnil
        rw [ih n buf (polls + 1) hlen
          (fun k h1 h2 => by simpa using hnt (k + 1) (by omega) (by simpa using h2))]
        simp only [List.nil_append]
        congr 1
        omega

/-- The wait loop of `connect` only appends to the text and only moves forward in the polls. -/
theorem connectWait_rest (n : Nat) (script : List Poll) (buf : Bytes) (polls : Nat) :
    buf <+: (connectWait n script buf polls).text ∧
    polls ≤ (connectWait n script buf polls).polls ∧
    ∃ j, (connectWait n script buf polls).rest = script.drop j := by
  induction n generalizing script buf polls with
  | zero => exact ⟨by simp [connectWait], by simp [connectWait], 0, by simp [connectWait]⟩
  | succ n ih =>
    have hstep : ∀ (b : Bytes), buf <+: b →
        buf <+: (connectWait n script.tail b (polls + 1)).text ∧
        polls ≤ (connectWait n script.tail b (polls + 1)).polls ∧
        ∃ j, (connectWait n script.tail b (polls + 1)).rest = script.drop j := by
      intro b hb
      obtain ⟨h1, h2, j, h3⟩ := ih script.tail b (polls + 1)
      refine ⟨hb.trans h1, by omega, j + 1, ?_⟩
      rw [h3]
      cases script <;> simp
    have htail : script.tail = script.drop 1 := by cases script <;> simp
    simp only [connectWait]
    by_cases hneg : (nextPoll script).avail < 0
    · rw [if_pos hneg]
      exact ⟨List.prefix_refl _, by simp, 1, htail⟩
    · rw [if_neg hneg]
      by_cases hpos : (nextPoll script).avail > 0
      · rw [if_pos hpos]
        by_cases he : endsWith (buf ++ (nextPoll script).chunk) ['\r', '\n', '\r', '\n'] = true
        · rw [if_pos he]
          exact ⟨List.prefix_append _ _, by simp, 1, htail⟩
        · rw [if_neg he]
          exact hstep _ (List.prefix_append _ _)
      · rw [if_neg hpos]
        exact hstep _ (List.prefix_refl _)

/-- The bytes a tick forwards are a chunk of the polls still to come. -/
theorem relay_receive_mem (script : List Poll) (corr : Bytes)
    (h : Action.receive corr ∈ (relay script).1) : Poll.data corr ∈ script := by
  unfold relay at h
  cases script with
  | nil => simp [nextPoll, Poll.avail] at h
  | cons p rest =>
    cases p with
    | failure => simp [nextPoll, Poll.avail] at h
    | data c =>
      by_cases hc : (c.length : Int) > 0
      · simp [nextPoll, Poll.avail, Poll.chunk, hc] at h
        simp [h]
      · simp [nextPoll, Poll.avail, Poll.chunk, hc] at h

/-- Claim C22: for every sequence of at most 49 chunks, delivered on the first polls, none
of whose cumulative concatenations ends with `"\r\n\r\n"`, `connect` reads every chunk:
all of them are part of the response text it accumulated, the polls left for later calls
of `available` and `receive` are polls behind the chunks, so a later `receive` returns
none of their bytes, and when nothing arrives behind them the response text is exactly
their concatenation. -/
theorem connect_consumes_chunks (encode : Bytes → Bytes → Bytes) (self : NtripClient)
    (nlogin : ntrip_login) (chunks : List Bytes) (post : List Poll)
    (hfree : self.m_tcp = false) (hlen : chunks.length ≤ 49)
    (hnt : ∀ k, 1 ≤ k → k ≤ chunks.length →
      ¬ "\r\n\r\n".toList <:+ (chunks.take k).flatten) :
    ∃ out, connect encode self nlogin
        { connectResult := io_status.Success, writeResult := io_status.Success,
          script := chunks.map Poll.data ++ post } = Call.returned out ∧
      chunks.length ≤ out.polls ∧
      chunks.flatten <+: out.responseText ∧
      (∃ j, out.rest = post.drop j) ∧
      (∀ corr, Action.receive corr ∈ (relay out.rest).1 → Poll.data corr ∈ post) ∧
      (post = [] → out.responseText = chunks.flatten ∧ out.rest = []) := by
  have hw := connectWait_chunks (50 - 1) chunks post [] 0 (by omega)
    (fun k hk1 hk2 => by simpa using hnt k hk1 hk2)
  obtain ⟨h1, h2, j, h3⟩ := connectWait_rest (50 - 1 - chunks.length) post
    ([] ++ chunks.flatten) (0 + chunks.length)
  simp only [connect, hfree, Bool.false_eq_true, if_false, ne_eq, not_true_eq_false, hw]
  refine ⟨_, rfl, by simpa using h2, by simpa using h1, ⟨j, h3⟩, ?_, ?_⟩
  · intro corr hcorr
    simp only at hcorr
    rw [h3] at hcorr
    exact List.mem_of_mem_drop (relay_receive_mem _ corr hcorr)
  · intro hp
    subst hp
    obtain ⟨k, _, hk⟩ := connectWait_no_failure (50 - 1 - chunks.length) []
      ([] ++ chunks.flatten) (0 + chunks.length) (by simp)
    simp only [hk]
    simp [received_nil]

/-- A chunk `"ICY 200 OK\r\n\r\n"` followed by stream bytes is consumed whole by the
handshake, which returns ok (C22 at this input). -/
theorem connect_consumes_chunks_witness :
    ∃ out, connect (fun _ _ => "dTpw".toList) { m_tcp := false, m_aio := false }
        { mountpoint := "CMR".toList, username := "u".toList, password := "p".toList }
        { connectResult := io_status.Success, writeResult := io_status.Success,
          script := ["ICY 200 OK\r\n\r\nRTCM".toList].map Poll.data ++ [] } =
        Call.returned out ∧
      out.result = status.ok ∧
      out.responseText = "ICY 200 OK\r\n\r\nRTCM".toList ∧ out.rest = [] := by
  obtain ⟨out, ho, _, _, _, _, hall⟩ := connect_consumes_chunks (fun _ _ => "dTpw".toList)
    { m_tcp := false, m_aio := false }
    { mountpoint := "CMR".toList, username := "u".toList, password := "p".toList }
    ["ICY 200 OK\r\n\r\nRTCM".toList] [] rfl (by decide) (by decide)
  obtain ⟨htext, hrest⟩ := hall rfl
  refine ⟨out, ho, ?_, by simpa using htext, hrest⟩
  have hv : (match connect (fun _ _ => "dTpw".toList) { m_tcp := false, m_aio := false }
      { mountpoint := "CMR".toList, username := "u".toList, password := "p".toList }
      { connectResult := io_status.Success, writeResult := io_status.Success,
        script := ["ICY 200 OK\r\n\r\nRTCM".toList].map Poll.data ++ [] } with
      | Call.returned o => o.result
      | Call.thrown _ => status.error) = status.ok := by
    decide
  rw [ho] at hv
  exact hv

end VrsTunnel.Ntrip
